import Mathlib

/-!
Verification of the Purification_Simulation repository.

The code manipulates qutip density matrices whose entries, for every state
reachable in the simulated protocols, are real numbers.  We embed states as
matrices over `ℚ`.  Square roots such as `np.sqrt(gamma)` are irrational for
general rational `gamma`, so every function that computes `np.sqrt(x)` of a
parameter `x` is embedded with the square roots `sx` (standing for `√x`) and
`s1x` (standing for `√(1-x)`) passed as parameters; theorems that need the
underlying `x ∈ [0,1]` carry hypotheses such as `sx^2 + s1x^2 = 1`.
For real matrices the conjugate transpose (`.dag()` in qutip) is the plain
transpose, which is how it is embedded here.  Positive semidefiniteness of a
rational density matrix is embedded as `MixRep`: the matrix is a finite
mixture, with nonnegative rational weights, of rational rank-one outer
products — the standard decomposition of a density matrix into (unnormalized)
pure states.
-/

namespace PurifSim

abbrev Mat (n : ℕ) : Type := Matrix (Fin n) (Fin n) ℚ

/-- Kronecker product on square rational matrices, with the first factor the
most significant index block, matching `qutip.tensor`. -/
def kron {m n : ℕ} (A : Mat m) (B : Mat n) : Mat (m * n) :=
  Matrix.of fun i j => A i.divNat j.divNat * B i.modNat j.modNat

/-- Kronecker product of two vectors, matching the index convention of
`kron`. -/
def kronVec {m n : ℕ} (v : Fin m → ℚ) (w : Fin n → ℚ) : Fin (m * n) → ℚ :=
  fun i => v i.divNat * w i.modNat

lemma kron_apply {m n : ℕ} (A : Mat m) (B : Mat n) (i j : Fin (m * n)) :
    kron A B i j = A i.divNat j.divNat * B i.modNat j.modNat := rfl

/-- Summing over `Fin (m * n)` by splitting the index into its two factors. -/
lemma sum_fin_mul {m n : ℕ} (f : Fin m → Fin n → ℚ) :
    (∑ i : Fin (m * n), f i.divNat i.modNat) = ∑ a : Fin m, ∑ b : Fin n, f a b := by
  have h := Equiv.sum_comp (@finProdFinEquiv m n).symm
    (fun p : Fin m × Fin n => f p.1 p.2)
  simp only [finProdFinEquiv_symm_apply] at h
  rw [h, Fintype.sum_prod_type]

lemma transpose_kron {m n : ℕ} (A : Mat m) (B : Mat n) :
    (kron A B).transpose = kron A.transpose B.transpose := by
  ext i j
  simp [kron, Matrix.transpose_apply]

lemma kron_mul_kron {m n : ℕ} (A C : Mat m) (B D : Mat n) :
    kron A B * kron C D = kron (A * C) (B * D) := by
  ext i j
  simp only [Matrix.mul_apply, kron, Matrix.of_apply]
  rw [sum_fin_mul fun a b => A i.divNat a * B i.modNat b * (C a j.divNat * D b j.modNat)]
  rw [Finset.sum_mul_sum]
  refine Finset.sum_congr rfl fun a _ => ?_
  refine Finset.sum_congr rfl fun b _ => ?_
  ring

lemma kron_add_left {m n : ℕ} (A B : Mat m) (C : Mat n) :
    kron (A + B) C = kron A C + kron B C := by
  ext i j
  simp [kron]
  ring

lemma kron_add_right {m n : ℕ} (A : Mat m) (B C : Mat n) :
    kron A (B + C) = kron A B + kron A C := by
  ext i j
  simp [kron]
  ring

lemma kron_smul_left {m n : ℕ} (c : ℚ) (A : Mat m) (B : Mat n) :
    kron (c • A) B = c • kron A B := by
  ext i j
  simp [kron]
  ring

lemma kron_smul_right {m n : ℕ} (c : ℚ) (A : Mat m) (B : Mat n) :
    kron A (c • B) = c • kron A B := by
  ext i j
  simp [kron]
  ring

lemma kron_zero_left {m n : ℕ} (B : Mat n) : kron (0 : Mat m) B = 0 := by
  ext i j
  simp [kron]

lemma kron_zero_right {m n : ℕ} (A : Mat m) : kron A (0 : Mat n) = 0 := by
  ext i j
  simp [kron]

/-- Partial trace over the last two qubits of a 4-qubit state: qutip
`ptrace([0, 1])` with the composite index `i = 4 * (block of qubits 0,1) +
(block of qubits 2,3)`. -/
def ptrace01 (ρ : Mat (4 * 4)) : Mat 4 :=
  Matrix.of fun a b => ∑ c : Fin 4, ρ (finProdFinEquiv (a, c)) (finProdFinEquiv (b, c))

lemma trace_ptrace01 (ρ : Mat (4 * 4)) : (ptrace01 ρ).trace = ρ.trace := by
  simp only [Matrix.trace, Matrix.diag, ptrace01, Matrix.of_apply]
  have h := Equiv.sum_comp (@finProdFinEquiv 4 4) (fun i => ρ i i)
  rw [← h, Fintype.sum_prod_type]

lemma ptrace01_add (A B : Mat (4 * 4)) :
    ptrace01 (A + B) = ptrace01 A + ptrace01 B := by
  ext a b
  simp [ptrace01, Finset.sum_add_distrib]

lemma ptrace01_smul (c : ℚ) (A : Mat (4 * 4)) :
    ptrace01 (c • A) = c • ptrace01 A := by
  ext a b
  simp [ptrace01, Finset.mul_sum]

/-- Restriction of a 4-qubit vector to the block where qubits 2,3 carry the
fixed index `c`. -/
def ptSlice (c : Fin 4) (z : Fin (4 * 4) → ℚ) : Fin 4 → ℚ :=
  fun a => z (finProdFinEquiv (a, c))

lemma ptrace01_vecMulVec (z : Fin (4 * 4) → ℚ) :
    ptrace01 (Matrix.vecMulVec z z)
      = ∑ c : Fin 4, Matrix.vecMulVec (ptSlice c z) (ptSlice c z) := by
  ext a b
  simp [ptrace01, Matrix.vecMulVec_apply, Matrix.sum_apply, ptSlice]

/-- Squared euclidean norm of a rational vector. -/
def dotsq {n : ℕ} (v : Fin n → ℚ) : ℚ := ∑ i, v i * v i

lemma dotsq_nonneg {n : ℕ} (v : Fin n → ℚ) : 0 ≤ dotsq v :=
  Finset.sum_nonneg fun i _ => mul_self_nonneg (v i)

lemma dotsq_kronVec {m n : ℕ} (v : Fin m → ℚ) (w : Fin n → ℚ) :
    dotsq (kronVec v w) = dotsq v * dotsq w := by
  simp only [dotsq, kronVec]
  rw [sum_fin_mul fun a b => v a * w b * (v a * w b), Finset.sum_mul_sum]
  refine Finset.sum_congr rfl fun a _ => Finset.sum_congr rfl fun b _ => ?_
  ring

lemma trace_vecMulVec {n : ℕ} (v : Fin n → ℚ) :
    (Matrix.vecMulVec v v).trace = dotsq v := by
  simp [Matrix.trace, Matrix.diag, Matrix.vecMulVec_apply, dotsq]

lemma conj_vecMulVec {n : ℕ} (M : Mat n) (v : Fin n → ℚ) :
    M * Matrix.vecMulVec v v * M.transpose
      = Matrix.vecMulVec (M.mulVec v) (M.mulVec v) := by
  ext i j
  simp only [Matrix.mul_apply, Matrix.vecMulVec_apply, Matrix.transpose_apply,
    Matrix.mulVec, Matrix.dotProduct]
  rw [Finset.sum_mul_sum]
  rw [Finset.sum_comm]
  refine Finset.sum_congr rfl fun b _ => ?_
  rw [Finset.sum_mul]
  refine Finset.sum_congr rfl fun a _ => ?_
  ring

lemma kron_vecMulVec {m n : ℕ} (v : Fin m → ℚ) (w : Fin n → ℚ) :
    kron (Matrix.vecMulVec v v) (Matrix.vecMulVec w w)
      = Matrix.vecMulVec (kronVec v w) (kronVec v w) := by
  ext i j
  simp only [kron, Matrix.vecMulVec_apply, kronVec, Matrix.of_apply]
  ring

/-! ## Mixture (rank-one decomposition) machinery -/

/-- A formal mixture: a list of weighted (unnormalized) pure states. -/
abbrev MixL (n : ℕ) : Type := List (ℚ × (Fin n → ℚ))

/-- The density matrix of a formal mixture. -/
def mixSum {n : ℕ} : MixL n → Mat n
  | [] => 0
  | q :: l => q.1 • Matrix.vecMulVec q.2 q.2 + mixSum l

/-- The trace of a formal mixture, computed weight by weight. -/
def mixTr {n : ℕ} : MixL n → ℚ
  | [] => 0
  | q :: l => q.1 * dotsq q.2 + mixTr l

/-- A matrix is positive semidefinite (in the density-matrix sense) when it is
a nonnegative mixture of rank-one outer products. -/
def MixRep {n : ℕ} (ρ : Mat n) : Prop :=
  ∃ l : MixL n, (∀ q ∈ l, 0 ≤ q.1) ∧ ρ = mixSum l

lemma trace_mixSum {n : ℕ} (l : MixL n) : (mixSum l).trace = mixTr l := by
  induction l with
  | nil => simp [mixSum, mixTr]
  | cons q l ih =>
      simp [mixSum, mixTr, Matrix.trace_add, Matrix.trace_smul, trace_vecMulVec, ih]

lemma mixTr_nonneg {n : ℕ} (l : MixL n) (h : ∀ q ∈ l, 0 ≤ q.1) : 0 ≤ mixTr l := by
  induction l with
  | nil => simp [mixTr]
  | cons q l ih =>
      have hq := h q (List.mem_cons_self q l)
      have hl := ih fun r hr => h r (List.mem_cons_of_mem q hr)
      have : 0 ≤ q.1 * dotsq q.2 := mul_nonneg hq (dotsq_nonneg q.2)
      simp only [mixTr]
      linarith

lemma mixSum_append {n : ℕ} (l1 l2 : MixL n) :
    mixSum (l1 ++ l2) = mixSum l1 + mixSum l2 := by
  induction l1 with
  | nil => simp [mixSum]
  | cons q l ih => simp [mixSum, ih, add_assoc]

lemma mixTr_append {n : ℕ} (l1 l2 : MixL n) :
    mixTr (l1 ++ l2) = mixTr l1 + mixTr l2 := by
  induction l1 with
  | nil => simp [mixTr]
  | cons q l ih => simp [mixTr, ih]; ring

/-- Conjugating every pure state of a mixture by a fixed matrix. -/
def mixMap {n : ℕ} (M : Mat n) (l : MixL n) : MixL n :=
  l.map fun q => (q.1, M.mulVec q.2)

lemma mixMap_nonneg {n : ℕ} (M : Mat n) (l : MixL n) (h : ∀ q ∈ l, 0 ≤ q.1) :
    ∀ q ∈ mixMap M l, 0 ≤ q.1 := by
  intro q hq
  rcases List.mem_map.1 hq with ⟨r, hr, rfl⟩
  exact h r hr

lemma mixSum_mixMap {n : ℕ} (M : Mat n) (l : MixL n) :
    mixSum (mixMap M l) = M * mixSum l * M.transpose := by
  induction l with
  | nil => simp [mixMap, mixSum]
  | cons q l ih =>
      simp only [mixMap, List.map_cons, mixSum] at ih ⊢
      rw [Matrix.mul_add, Matrix.add_mul, ih, Matrix.mul_smul, Matrix.smul_mul,
        conj_vecMulVec]

lemma mixTr_mixMap_eq {n : ℕ} (M : Mat n) (l : MixL n)
    (h : ∀ v : Fin n → ℚ, dotsq (M.mulVec v) = dotsq v) :
    mixTr (mixMap M l) = mixTr l := by
  induction l with
  | nil => simp [mixMap, mixTr]
  | cons q l ih =>
      simp only [mixMap, List.map_cons, mixTr] at ih ⊢
      rw [ih, h]

lemma mixTr_mixMap_le {n : ℕ} (M : Mat n) (l : MixL n)
    (hl : ∀ q ∈ l, 0 ≤ q.1)
    (h : ∀ v : Fin n → ℚ, dotsq (M.mulVec v) ≤ dotsq v) :
    mixTr (mixMap M l) ≤ mixTr l := by
  induction l with
  | nil => simp [mixMap, mixTr]
  | cons q l ih =>
      have hq := hl q (List.mem_cons_self q l)
      have hrec := ih fun r hr => hl r (List.mem_cons_of_mem q hr)
      simp only [mixMap, List.map_cons, mixTr] at hrec ⊢
      have h1 : q.1 * dotsq (M.mulVec q.2) ≤ q.1 * dotsq q.2 :=
        mul_le_mul_of_nonneg_left (h q.2) hq
      have : mixTr (List.map (fun q => (q.1, M.mulVec q.2)) l) ≤ mixTr l := hrec
      linarith

lemma mixTr_mixMap_pair_le {n : ℕ} (A B : Mat n) (l : MixL n)
    (hl : ∀ q ∈ l, 0 ≤ q.1)
    (h : ∀ v : Fin n → ℚ, dotsq (A.mulVec v) + dotsq (B.mulVec v) ≤ dotsq v) :
    mixTr (mixMap A l) + mixTr (mixMap B l) ≤ mixTr l := by
  induction l with
  | nil => simp [mixMap, mixTr]
  | cons q l ih =>
      have hq := hl q (List.mem_cons_self q l)
      have hrec := ih fun r hr => hl r (List.mem_cons_of_mem q hr)
      simp only [mixMap, List.map_cons, mixTr] at hrec ⊢
      have h1 : q.1 * dotsq (A.mulVec q.2) + q.1 * dotsq (B.mulVec q.2) ≤ q.1 * dotsq q.2 := by
        have := h q.2
        nlinarith
      have : mixTr (List.map (fun q => (q.1, A.mulVec q.2)) l)
          + mixTr (List.map (fun q => (q.1, B.mulVec q.2)) l) ≤ mixTr l := hrec
      linarith

/-- Rescaling all the weights of a mixture. -/
def mixScale {n : ℕ} (t : ℚ) (l : MixL n) : MixL n :=
  l.map fun q => (t * q.1, q.2)

lemma mixScale_nonneg {n : ℕ} (t : ℚ) (l : MixL n) (ht : 0 ≤ t)
    (h : ∀ q ∈ l, 0 ≤ q.1) : ∀ q ∈ mixScale t l, 0 ≤ q.1 := by
  intro q hq
  rcases List.mem_map.1 hq with ⟨r, hr, rfl⟩
  exact mul_nonneg ht (h r hr)

lemma mixSum_mixScale {n : ℕ} (t : ℚ) (l : MixL n) :
    mixSum (mixScale t l) = t • mixSum l := by
  induction l with
  | nil => simp [mixScale, mixSum]
  | cons q l ih =>
      simp only [mixScale, List.map_cons, mixSum, smul_add, mul_smul] at ih ⊢
      rw [ih]

/-- Tensoring two mixtures. -/
def mixKron (l1 : MixL 4) (l2 : MixL 4) : MixL (4 * 4) :=
  l1.flatMap fun q1 => l2.map fun q2 => (q1.1 * q2.1, kronVec q1.2 q2.2)

lemma mixKron_nonneg (l1 l2 : MixL 4) (h1 : ∀ q ∈ l1, 0 ≤ q.1)
    (h2 : ∀ q ∈ l2, 0 ≤ q.1) : ∀ q ∈ mixKron l1 l2, 0 ≤ q.1 := by
  intro q hq
  rcases List.mem_flatMap.1 hq with ⟨r1, hr1, hmem⟩
  rcases List.mem_map.1 hmem with ⟨r2, hr2, rfl⟩
  exact mul_nonneg (h1 r1 hr1) (h2 r2 hr2)

lemma mixSum_single_kron (c : ℚ) (v : Fin 4 → ℚ) (l2 : MixL 4) :
    mixSum (l2.map fun q2 => (c * q2.1, kronVec v q2.2))
      = kron (c • Matrix.vecMulVec v v) (mixSum l2) := by
  induction l2 with
  | nil => simp [mixSum, kron_zero_right]
  | cons r l ih =>
      simp only [List.map_cons, mixSum, ih, kron_add_right, kron_smul_left,
        kron_smul_right, kron_vecMulVec, smul_smul]
      rw [mul_comm c r.1]

lemma mixSum_mixKron (l1 l2 : MixL 4) :
    mixSum (mixKron l1 l2) = kron (mixSum l1) (mixSum l2) := by
  induction l1 with
  | nil => simp [mixKron, mixSum, kron_zero_left]
  | cons q l ih =>
      simp only [mixKron] at ih
      simp only [mixKron, List.flatMap_cons, mixSum_append, ih, mixSum, kron_add_left]
      rw [mixSum_single_kron]

lemma mixTr_single_kron (c : ℚ) (v : Fin 4 → ℚ) (l2 : MixL 4) :
    mixTr (l2.map fun q2 => (c * q2.1, kronVec v q2.2))
      = c * dotsq v * mixTr l2 := by
  induction l2 with
  | nil => simp [mixTr]
  | cons r l ih =>
      simp only [List.map_cons, mixTr, ih, dotsq_kronVec]
      ring

lemma mixTr_mixKron (l1 l2 : MixL 4) :
    mixTr (mixKron l1 l2) = mixTr l1 * mixTr l2 := by
  induction l1 with
  | nil => simp [mixKron, mixTr]
  | cons q l ih =>
      simp only [mixKron] at ih
      simp only [mixKron, List.flatMap_cons, mixTr_append, ih, mixTr]
      rw [mixTr_single_kron]
      ring

/-- Partial trace of a mixture: each pure state splits into its four slices. -/
def mixPt (l : MixL (4 * 4)) : MixL 4 :=
  l.flatMap fun q =>
    [(q.1, ptSlice 0 q.2), (q.1, ptSlice 1 q.2), (q.1, ptSlice 2 q.2), (q.1, ptSlice 3 q.2)]

lemma mixPt_nonneg (l : MixL (4 * 4)) (h : ∀ q ∈ l, 0 ≤ q.1) :
    ∀ q ∈ mixPt l, 0 ≤ q.1 := by
  intro q hq
  rcases List.mem_flatMap.1 hq with ⟨r, hr, hmem⟩
  have hr1 := h r hr
  simp only [List.mem_cons, List.not_mem_nil, or_false] at hmem
  rcases hmem with h1 | h1 | h1 | h1 <;> rw [h1]  <;> exact hr1

lemma mixSum_mixPt (l : MixL (4 * 4)) :
    mixSum (mixPt l) = ptrace01 (mixSum l) := by
  induction l with
  | nil =>
      ext a b
      simp [mixPt, mixSum, ptrace01]
  | cons q l ih =>
      simp only [mixPt] at ih
      simp only [mixPt, List.flatMap_cons, mixSum_append, mixSum, ih, ptrace01_add,
        ptrace01_smul, add_zero]
      rw [ptrace01_vecMulVec, Fin.sum_univ_four, smul_add, smul_add, smul_add, add_assoc,
        add_assoc, add_assoc]
      simp only [List.flatMap, List.nil_append, List.append_eq] at ih ⊢
      rw [ih]

/-! ## Fixed operators used throughout the repository -/

/-- The 2x2 identity `qt.qeye(2)`. -/
def qeye2 : Mat 2 := 1

/-- The Pauli Z matrix `qt.sigmaz()`. -/
def sigmazM : Mat 2 := !![1, 0; 0, -1]

/-- The Pauli X matrix `qt.sigmax()`. -/
def sigmaxM : Mat 2 := !![0, 1; 1, 0]

/-- The projector `|0⟩⟨0|`. -/
def P0m : Mat 2 := !![1, 0; 0, 0]

/-- The projector `|1⟩⟨1|`. -/
def P1m : Mat 2 := !![0, 0; 0, 1]

/-- Projector onto the Bell state `|Φ+⟩ = (|00⟩+|11⟩)/√2`:
`qt.bell_state('00').proj()`. -/
def bellProj : Mat 4 := !![1/2, 0, 0, 1/2; 0, 0, 0, 0; 0, 0, 0, 0; 1/2, 0, 0, 1/2]

/-- The unnormalized Bell vector `|00⟩ + |11⟩`; `bellProj` is `1/2` times its
outer product with itself. -/
def bellVec : Fin 4 → ℚ := ![1, 0, 0, 1]

/-! ## noise.py -/

/-- Single-qubit amplitude-damping Kraus operators (`noise.amp_damp_kraus`):
`[[1,0],[0,√(1-γ)]]` and `[[0,√γ],[0,0]]`, with `sg = √γ`, `s1g = √(1-γ)`. -/
def amp_damp_kraus (sg s1g : ℚ) : List (Mat 2) :=
  [!![1, 0; 0, s1g], !![0, sg; 0, 0]]

/-- Single-qubit phase-damping Kraus operators (`noise.phase_damp_kraus`):
`√(1-p)·I` and `√p·σz`, with `sp = √p`, `s1p = √(1-p)`. -/
def phase_damp_kraus (sp s1p : ℚ) : List (Mat 2) :=
  [s1p • qeye2, sp • sigmazM]

/-- One Kraus term `K ρ K†` of a channel acting on a 2-qubit state. -/
def applyK (ρ : Mat 4) (K : Mat 4) : Mat 4 := K * ρ * K.transpose

/-- `noise.two_qubit_noise`: loops `for k1 in amp_damp_kraus(γ)`,
`for k2 in phase_damp_kraus(p)`, accumulating `tensor(k1,k2) ρ tensor(k1,k2)†`. -/
def two_qubit_noise (sg s1g sp s1p : ℚ) (ρ : Mat 4) : Mat 4 :=
  ((amp_damp_kraus sg s1g).flatMap fun k1 =>
    (phase_damp_kraus sp s1p).map fun k2 => applyK ρ (kron k1 k2)).sum

/-- The variant of `phase_damp_kraus` duplicated inside `simulate.py`
("throughput improvement"): `√(1-p)·I` and `√p·σz/2`. -/
def phase_damp_kraus_sim (sp s1p : ℚ) : List (Mat 2) :=
  [s1p • qeye2, (sp / 2) • sigmazM]

/-- The `two_qubit_noise` duplicated inside `simulate.py`, identical to
`noise.two_qubit_noise` except that it uses `phase_damp_kraus_sim`. -/
def two_qubit_noise_sim (sg s1g sp s1p : ℚ) (ρ : Mat 4) : Mat 4 :=
  ((amp_damp_kraus sg s1g).flatMap fun k1 =>
    (phase_damp_kraus_sim sp s1p).map fun k2 => applyK ρ (kron k1 k2)).sum

/-! ## purification.py -/

/-- One tensor factor of a term of `purification.cnot_4qubit`: position `i`
carries the control projector, the target operator, or the identity. -/
def cnotFactor (control target : ℕ) (proj opc : Mat 2) (i : ℕ) : Mat 2 :=
  if i = control then proj else if i = target then opc else qeye2

/-- One of the two tensor-product terms summed by `purification.cnot_4qubit`
(`qt.tensor(op_list)` associates to the left). -/
def cnotOps (control target : ℕ) (proj opc : Mat 2) : Mat 16 :=
  kron (kron (kron (cnotFactor control target proj opc 0)
    (cnotFactor control target proj opc 1)) (cnotFactor control target proj opc 2))
    (cnotFactor control target proj opc 3)

/-- `purification.cnot_4qubit` with `num_qubits = 4`: the `P0` branch places
the identity on the target, the `P1` branch places `X` there. -/
def cnot_4qubit (control target : ℕ) : Mat 16 :=
  cnotOps control target P0m qeye2 + cnotOps control target P1m sigmaxM

/-- Alice's CNOT (control qubit 0, target qubit 2) used by `dejmps_purify`. -/
def CNOT_A : Mat 16 := cnot_4qubit 0 2

/-- Bob's CNOT (control qubit 1, target qubit 3) used by `dejmps_purify`. -/
def CNOT_B : Mat 16 := cnot_4qubit 1 3

/-- `proj_00 = tensor(I, I, P0, P0)` from `dejmps_purify`. -/
def proj00 : Mat 16 := kron (kron (kron qeye2 qeye2) P0m) P0m

/-- `proj_11 = tensor(I, I, P1, P1)` from `dejmps_purify`. -/
def proj11 : Mat 16 := kron (kron (kron qeye2 qeye2) P1m) P1m

/-- The state after both CNOTs in `dejmps_purify`:
`CNOT_B * (CNOT_A * (ρ1 ⊗ ρ2) * CNOT_A†) * CNOT_B†`. -/
def rhoAfter (ρ1 ρ2 : Mat 4) : Mat 16 :=
  CNOT_B * (CNOT_A * kron ρ1 ρ2 * CNOT_A.transpose) * CNOT_B.transpose

/-- The success probability `p_00 + p_11` computed by `dejmps_purify`. -/
def dejmpsProb (ρ1 ρ2 : Mat 4) : ℚ :=
  (proj00 * rhoAfter ρ1 ρ2 * proj00).trace + (proj11 * rhoAfter ρ1 ρ2 * proj11).trace

/-- `purification.dejmps_purify`: post-select on agreeing measurement outcomes
of qubits 2,3, normalize, and trace the measured qubits out; returns
`(None, 0.0)` when the post-selection probability is zero. -/
def dejmps_purify (ρ1 ρ2 : Mat 4) : Option (Mat 4) × ℚ :=
  if dejmpsProb ρ1 ρ2 = 0 then (none, 0)
  else (some (ptrace01 ((dejmpsProb ρ1 ρ2)⁻¹ •
      (proj00 * rhoAfter ρ1 ρ2 * proj00 + proj11 * rhoAfter ρ1 ρ2 * proj11))),
    dejmpsProb ρ1 ρ2)

/-- The single-qubit filter `np.diag([√α, √(1-α)])`, with `sa = √α`,
`s1a = √(1-α)`. -/
def filterF (sa s1a : ℚ) : Mat 2 := !![sa, 0; 0, s1a]

/-- The two-qubit filter `F ⊗ F` from `purification.apply_filter`. -/
def filterF2 (sa s1a : ℚ) : Mat 4 := kron (filterF sa s1a) (filterF sa s1a)

/-- The unnormalized filtered state `F2 ρ F2†`. -/
def filtState (sa s1a : ℚ) (ρ : Mat 4) : Mat 4 :=
  filterF2 sa s1a * ρ * (filterF2 sa s1a).transpose

/-- The filter success probability: the trace of the filtered state. -/
def filtProb (sa s1a : ℚ) (ρ : Mat 4) : ℚ := (filtState sa s1a ρ).trace

/-- `purification.apply_filter`: returns `(None, 0.0)` when the filtered state
has trace zero, otherwise the normalized state and the trace. -/
def apply_filter (sa s1a : ℚ) (ρ : Mat 4) : Option (Mat 4) × ℚ :=
  if filtProb sa s1a ρ = 0 then (none, 0)
  else (some ((filtProb sa s1a ρ)⁻¹ • filtState sa s1a ρ), filtProb sa s1a ρ)

/-! ## Small concrete operator facts -/

lemma P0m_transpose : P0m.transpose = P0m := by
  ext i j
  fin_cases i <;> fin_cases j <;> norm_num [P0m, Matrix.transpose_apply]

lemma P1m_transpose : P1m.transpose = P1m := by
  ext i j
  fin_cases i <;> fin_cases j <;> norm_num [P1m, Matrix.transpose_apply]

lemma sigmaxM_transpose : sigmaxM.transpose = sigmaxM := by
  ext i j
  fin_cases i <;> fin_cases j <;> norm_num [sigmaxM, Matrix.transpose_apply]

lemma P0m_mul_P0m : P0m * P0m = P0m := by
  ext i j
  fin_cases i <;> fin_cases j <;>
    norm_num [P0m, Matrix.mul_apply, Fin.sum_univ_two, Matrix.vecHead, Matrix.vecTail]

lemma P1m_mul_P1m : P1m * P1m = P1m := by
  ext i j
  fin_cases i <;> fin_cases j <;>
    norm_num [P1m, Matrix.mul_apply, Fin.sum_univ_two, Matrix.vecHead, Matrix.vecTail]

lemma P0m_mul_P1m : P0m * P1m = 0 := by
  ext i j
  fin_cases i <;> fin_cases j <;>
    norm_num [P0m, P1m, Matrix.mul_apply, Fin.sum_univ_two, Matrix.vecHead, Matrix.vecTail]

lemma P1m_mul_P0m : P1m * P0m = 0 := by
  ext i j
  fin_cases i <;> fin_cases j <;>
    norm_num [P0m, P1m, Matrix.mul_apply, Fin.sum_univ_two, Matrix.vecHead, Matrix.vecTail]

lemma sigmaxM_mul_sigmaxM : sigmaxM * sigmaxM = 1 := by
  ext i j
  fin_cases i <;> fin_cases j <;>
    norm_num [sigmaxM, Matrix.mul_apply, Fin.sum_univ_two, Matrix.vecHead, Matrix.vecTail,
      Matrix.one_apply]

lemma P0m_add_P1m : P0m + P1m = 1 := by
  ext i j
  fin_cases i <;> fin_cases j <;> norm_num [P0m, P1m, Matrix.one_apply]

/-! ## Diagonal and unitary structure -/

lemma eq_of_divNat_modNat {m n : ℕ} {i j : Fin (m * n)}
    (h1 : i.divNat = j.divNat) (h2 : i.modNat = j.modNat) : i = j := by
  have h1' : i.val / n = j.val / n := by
    have h := congrArg Fin.val h1
    simpa [Fin.coe_divNat] using h
  have h2' : i.val % n = j.val % n := by
    have h := congrArg Fin.val h2
    simpa [Fin.coe_modNat] using h
  apply Fin.ext
  calc i.val = n * (i.val / n) + i.val % n := (Nat.div_add_mod i.val n).symm
    _ = n * (j.val / n) + j.val % n := by rw [h1', h2']
    _ = j.val := Nat.div_add_mod j.val n

lemma kron_diagonal {m n : ℕ} (a : Fin m → ℚ) (b : Fin n → ℚ) :
    kron (Matrix.diagonal a) (Matrix.diagonal b)
      = Matrix.diagonal fun i : Fin (m * n) => a i.divNat * b i.modNat := by
  ext i j
  by_cases h : i = j
  · subst h
    simp [kron, Matrix.diagonal_apply_eq]
  · have hd : i.divNat ≠ j.divNat ∨ i.modNat ≠ j.modNat := by
      by_contra hc
      push_neg at hc
      exact h (eq_of_divNat_modNat hc.1 hc.2)
    have hz : Matrix.diagonal (fun i : Fin (m * n) => a i.divNat * b i.modNat) i j = 0 :=
      Matrix.diagonal_apply_ne _ h
    rw [hz, kron_apply]
    rcases hd with hd | hd
    · rw [Matrix.diagonal_apply_ne _ hd, zero_mul]
    · rw [Matrix.diagonal_apply_ne _ hd, mul_zero]

lemma kron_one_one {m n : ℕ} : kron (1 : Mat m) (1 : Mat n) = 1 := by
  rw [← Matrix.diagonal_one, ← Matrix.diagonal_one, kron_diagonal]
  simp

/-- `dotsq` of `M *ᵥ z` as the quadratic form of `Mᵀ * M`. -/
lemma dotsq_mulVec {n : ℕ} (M : Mat n) (z : Fin n → ℚ) :
    dotsq (M.mulVec z) = Matrix.dotProduct z ((M.transpose * M).mulVec z) := by
  simp only [dotsq, Matrix.mulVec, Matrix.dotProduct, Matrix.mul_apply,
    Matrix.transpose_apply, Finset.sum_mul, Finset.mul_sum]
  rw [Finset.sum_comm]
  refine Finset.sum_congr rfl fun a _ => ?_
  rw [Finset.sum_comm]
  refine Finset.sum_congr rfl fun b _ => ?_
  refine Finset.sum_congr rfl fun i _ => ?_
  ring

lemma dotsq_mulVec_orthogonal {n : ℕ} (M : Mat n) (h : M.transpose * M = 1)
    (z : Fin n → ℚ) : dotsq (M.mulVec z) = dotsq z := by
  rw [dotsq_mulVec, h, Matrix.one_mulVec]
  simp [dotsq, Matrix.dotProduct]

/-- The two tensor-product terms of `CNOT_A`. -/
lemma CNOT_A_eq :
    CNOT_A = kron (kron (kron P0m qeye2) qeye2) qeye2
      + kron (kron (kron P1m qeye2) sigmaxM) qeye2 := by
  norm_num [CNOT_A, cnot_4qubit, cnotOps, cnotFactor]

/-- The two tensor-product terms of `CNOT_B`. -/
lemma CNOT_B_eq :
    CNOT_B = kron (kron (kron qeye2 P0m) qeye2) qeye2
      + kron (kron (kron qeye2 P1m) qeye2) sigmaxM := by
  norm_num [CNOT_B, cnot_4qubit, cnotOps, cnotFactor]

lemma CNOT_A_orthogonal : CNOT_A.transpose * CNOT_A = 1 := by
  rw [CNOT_A_eq, show (qeye2 : Mat 2) = 1 from rfl]
  rw [Matrix.transpose_add, transpose_kron, transpose_kron, transpose_kron,
    transpose_kron, transpose_kron, transpose_kron]
  rw [P0m_transpose, P1m_transpose, sigmaxM_transpose, Matrix.transpose_one]
  rw [Matrix.add_mul, Matrix.mul_add, Matrix.mul_add]
  rw [kron_mul_kron, kron_mul_kron, kron_mul_kron, kron_mul_kron, kron_mul_kron,
    kron_mul_kron, kron_mul_kron, kron_mul_kron, kron_mul_kron, kron_mul_kron,
    kron_mul_kron, kron_mul_kron]
  rw [P0m_mul_P0m, P0m_mul_P1m, P1m_mul_P0m, P1m_mul_P1m, sigmaxM_mul_sigmaxM]
  simp only [Matrix.one_mul, Matrix.mul_one, kron_zero_left, add_zero, zero_add]
  rw [← kron_add_left, ← kron_add_left, ← kron_add_left, P0m_add_P1m]
  rw [kron_one_one, kron_one_one, kron_one_one]

lemma CNOT_B_orthogonal : CNOT_B.transpose * CNOT_B = 1 := by
  rw [CNOT_B_eq, show (qeye2 : Mat 2) = 1 from rfl]
  rw [Matrix.transpose_add, transpose_kron, transpose_kron, transpose_kron,
    transpose_kron, transpose_kron, transpose_kron]
  rw [P0m_transpose, P1m_transpose, sigmaxM_transpose, Matrix.transpose_one]
  rw [Matrix.add_mul, Matrix.mul_add, Matrix.mul_add]
  rw [kron_mul_kron, kron_mul_kron, kron_mul_kron, kron_mul_kron, kron_mul_kron,
    kron_mul_kron, kron_mul_kron, kron_mul_kron, kron_mul_kron, kron_mul_kron,
    kron_mul_kron, kron_mul_kron]
  rw [P0m_mul_P0m, P0m_mul_P1m, P1m_mul_P0m, P1m_mul_P1m, sigmaxM_mul_sigmaxM]
  simp only [Matrix.one_mul, Matrix.mul_one, kron_zero_left, kron_zero_right, add_zero,
    zero_add]
  rw [← kron_add_left, ← kron_add_left, ← kron_add_right, P0m_add_P1m]
  rw [kron_one_one, kron_one_one, kron_one_one]

/-! ## Diagonal forms of the projectors and the filter -/

/-- Diagonal of `proj00`: the indices whose qubits 2,3 read `00`. -/
def d00vec : Fin 16 → ℚ := fun i => if i.val % 4 = 0 then 1 else 0

/-- Diagonal of `proj11`: the indices whose qubits 2,3 read `11`. -/
def d11vec : Fin 16 → ℚ := fun i => if i.val % 4 = 3 then 1 else 0

lemma qeye2_diag : qeye2 = Matrix.diagonal fun _ : Fin 2 => (1 : ℚ) := by
  rw [Matrix.diagonal_one]
  rfl

lemma P0m_diag : P0m = Matrix.diagonal fun i : Fin 2 => if i.val = 0 then (1 : ℚ) else 0 := by
  ext i j
  fin_cases i <;> fin_cases j <;> norm_num [P0m, Matrix.diagonal]

lemma P1m_diag : P1m = Matrix.diagonal fun i : Fin 2 => if i.val = 1 then (1 : ℚ) else 0 := by
  ext i j
  fin_cases i <;> fin_cases j <;> norm_num [P1m, Matrix.diagonal]

lemma proj00_diag : proj00 = Matrix.diagonal d00vec := by
  rw [proj00, qeye2_diag, P0m_diag, kron_diagonal, kron_diagonal, kron_diagonal]
  refine congrArg Matrix.diagonal ?_
  funext i
  fin_cases i <;> norm_num [d00vec, Fin.divNat, Fin.modNat]

lemma proj11_diag : proj11 = Matrix.diagonal d11vec := by
  rw [proj11, qeye2_diag, P1m_diag, kron_diagonal, kron_diagonal, kron_diagonal]
  refine congrArg Matrix.diagonal ?_
  funext i
  fin_cases i <;> norm_num [d11vec, Fin.divNat, Fin.modNat]

lemma proj00_transpose : proj00.transpose = proj00 := by
  rw [proj00_diag, Matrix.diagonal_transpose]

lemma proj11_transpose : proj11.transpose = proj11 := by
  rw [proj11_diag, Matrix.diagonal_transpose]

lemma filterF_diag (sa s1a : ℚ) :
    filterF sa s1a = Matrix.diagonal ![sa, s1a] := by
  ext i j
  fin_cases i <;> fin_cases j <;> norm_num [filterF, Matrix.diagonal]

lemma filterF2_diag (sa s1a : ℚ) :
    filterF2 sa s1a
      = Matrix.diagonal fun i : Fin (2 * 2) =>
          (![sa, s1a]) i.divNat * (![sa, s1a]) i.modNat := by
  rw [filterF2, filterF_diag, kron_diagonal]

lemma filterF2_transpose (sa s1a : ℚ) :
    (filterF2 sa s1a).transpose = filterF2 sa s1a := by
  rw [filterF2_diag, Matrix.diagonal_transpose]

/-! ## Quadratic contraction facts -/

lemma sqcontract (d t : ℚ) (hd : d ^ 2 ≤ 1) : d * t * (d * t) ≤ t * t := by
  have h1 : 0 ≤ (1 - d ^ 2) * (t * t) := mul_nonneg (by linarith) (mul_self_nonneg t)
  nlinarith [h1]

lemma dotsq_proj_pair (z : Fin 16 → ℚ) :
    dotsq (proj00.mulVec z) + dotsq (proj11.mulVec z) ≤ dotsq z := by
  rw [proj00_diag, proj11_diag]
  simp only [dotsq]
  rw [← Finset.sum_add_distrib]
  refine Finset.sum_le_sum fun i _ => ?_
  rw [Matrix.mulVec_diagonal, Matrix.mulVec_diagonal]
  fin_cases i <;> norm_num [d00vec, d11vec] <;> exact mul_self_nonneg _

lemma dotsq_filter_le (sa s1a : ℚ) (ha : sa ^ 2 ≤ 1) (hb : s1a ^ 2 ≤ 1)
    (z : Fin 4 → ℚ) : dotsq ((filterF2 sa s1a).mulVec z) ≤ dotsq z := by
  rw [filterF2_diag]
  simp only [dotsq]
  refine Finset.sum_le_sum fun i _ => ?_
  rw [Matrix.mulVec_diagonal]
  fin_cases i <;>
    norm_num [Fin.divNat, Fin.modNat, Matrix.vecHead, Matrix.vecTail] <;>
    exact sqcontract _ _ (by nlinarith [sq_nonneg sa, sq_nonneg s1a, sq_nonneg (sa * s1a)])

/-! ## Kraus completeness of the noise channels -/

lemma amp_complete (sg s1g : ℚ) (hg : sg ^ 2 + s1g ^ 2 = 1) :
    (!![1, 0; 0, s1g] : Mat 2).transpose * !![1, 0; 0, s1g]
      + (!![0, sg; 0, 0] : Mat 2).transpose * !![0, sg; 0, 0] = 1 := by
  ext i j
  fin_cases i <;> fin_cases j <;>
    norm_num [Matrix.mul_apply, Fin.sum_univ_two, Matrix.transpose_apply, Matrix.one_apply,
      Matrix.vecHead, Matrix.vecTail] <;>
    linear_combination hg

lemma phase_complete (sp s1p : ℚ) (hp : sp ^ 2 + s1p ^ 2 = 1) :
    (s1p • qeye2).transpose * (s1p • qeye2)
      + (sp • sigmazM).transpose * (sp • sigmazM) = 1 := by
  ext i j
  fin_cases i <;> fin_cases j <;>
    norm_num [qeye2, sigmazM, Matrix.mul_apply, Fin.sum_univ_two, Matrix.transpose_apply,
      Matrix.one_apply, Matrix.smul_apply, Matrix.vecHead, Matrix.vecTail] <;>
    linear_combination hp

/-- `two_qubit_noise` written out as its four Kraus terms. -/
lemma noise_sum_kraus (sg s1g sp s1p : ℚ) (ρ : Mat 4) :
    two_qubit_noise sg s1g sp s1p ρ
      = applyK ρ (kron !![1, 0; 0, s1g] (s1p • qeye2))
        + (applyK ρ (kron !![1, 0; 0, s1g] (sp • sigmazM))
        + (applyK ρ (kron !![0, sg; 0, 0] (s1p • qeye2))
        + applyK ρ (kron !![0, sg; 0, 0] (sp • sigmazM)))) := by
  simp [two_qubit_noise, amp_damp_kraus, phase_damp_kraus, add_assoc]

lemma trace_applyK (ρ K : Mat 4) :
    (applyK ρ K).trace = (K.transpose * K * ρ).trace := by
  rw [applyK, Matrix.trace_mul_cycle]

lemma noise_trace (sg s1g sp s1p : ℚ) (hg : sg ^ 2 + s1g ^ 2 = 1)
    (hp : sp ^ 2 + s1p ^ 2 = 1) (ρ : Mat 4) :
    (two_qubit_noise sg s1g sp s1p ρ).trace = ρ.trace := by
  rw [noise_sum_kraus]
  rw [Matrix.trace_add, Matrix.trace_add, Matrix.trace_add, trace_applyK, trace_applyK,
    trace_applyK, trace_applyK]
  rw [transpose_kron, transpose_kron, transpose_kron, transpose_kron]
  rw [kron_mul_kron, kron_mul_kron, kron_mul_kron, kron_mul_kron]
  rw [← Matrix.trace_add, ← Matrix.trace_add, ← Matrix.trace_add]
  rw [← Matrix.add_mul, ← Matrix.add_mul, ← Matrix.add_mul]
  have hsum :
      kron (!![1, 0; 0, s1g].transpose * !![1, 0; 0, s1g])
          ((s1p • qeye2).transpose * (s1p • qeye2))
        + (kron (!![1, 0; 0, s1g].transpose * !![1, 0; 0, s1g])
            ((sp • sigmazM).transpose * (sp • sigmazM))
        + (kron (!![0, sg; 0, 0].transpose * !![0, sg; 0, 0])
            ((s1p • qeye2).transpose * (s1p • qeye2))
        + kron (!![0, sg; 0, 0].transpose * !![0, sg; 0, 0])
            ((sp • sigmazM).transpose * (sp • sigmazM))))
      = kron (!![1, 0; 0, s1g].transpose * !![1, 0; 0, s1g]
            + !![0, sg; 0, 0].transpose * !![0, sg; 0, 0])
          ((s1p • qeye2).transpose * (s1p • qeye2)
            + (sp • sigmazM).transpose * (sp • sigmazM)) := by
    rw [kron_add_right, kron_add_left, kron_add_left]
    abel
  rw [hsum, amp_complete sg s1g hg, phase_complete sp s1p hp, kron_one_one, Matrix.one_mul]

lemma noise_mixRep (sg s1g sp s1p : ℚ) (ρ : Mat 4) (h : MixRep ρ) :
    MixRep (two_qubit_noise sg s1g sp s1p ρ) := by
  obtain ⟨l, hl, rfl⟩ := h
  refine ⟨mixMap (kron !![1, 0; 0, s1g] (s1p • qeye2)) l
    ++ (mixMap (kron !![1, 0; 0, s1g] (sp • sigmazM)) l
    ++ (mixMap (kron !![0, sg; 0, 0] (s1p • qeye2)) l
    ++ mixMap (kron !![0, sg; 0, 0] (sp • sigmazM)) l)), ?_, ?_⟩
  · intro q hq
    simp only [List.mem_append] at hq
    rcases hq with hq | hq | hq | hq <;> exact mixMap_nonneg _ _ hl q hq
  · rw [noise_sum_kraus, mixSum_append, mixSum_append, mixSum_append,
      mixSum_mixMap, mixSum_mixMap, mixSum_mixMap, mixSum_mixMap]
    rfl

/-! ## The Bell projector is a density matrix -/

lemma bellProj_mix : bellProj = mixSum [((1 : ℚ)/2, bellVec)] := by
  ext i j
  fin_cases i <;> fin_cases j <;>
    norm_num [bellProj, bellVec, mixSum, Matrix.vecMulVec_apply, Matrix.vecHead,
      Matrix.vecTail]

lemma bellProj_mixRep : MixRep bellProj := by
  refine ⟨[(1/2, bellVec)], ?_, bellProj_mix⟩
  intro q hq
  simp only [List.mem_singleton] at hq
  rw [hq]
  norm_num

lemma bellProj_trace : bellProj.trace = 1 := by
  norm_num [bellProj, Matrix.trace, Matrix.diag, Fin.sum_univ_four, Matrix.vecHead,
    Matrix.vecTail]

/-! ## Key properties of the filter -/

lemma filtState_mixSum (sa s1a : ℚ) (l : MixL 4) :
    filtState sa s1a (mixSum l) = mixSum (mixMap (filterF2 sa s1a) l) := by
  rw [mixSum_mixMap, filtState, filterF2_transpose]

lemma filter_key (sa s1a : ℚ) (ρ : Mat 4) (h : MixRep ρ) (t : ρ.trace = 1)
    (ha : sa ^ 2 ≤ 1) (hb : s1a ^ 2 ≤ 1) :
    0 ≤ filtProb sa s1a ρ ∧ filtProb sa s1a ρ ≤ 1 ∧
      ∀ σ p, apply_filter sa s1a ρ = (some σ, p) → MixRep σ ∧ σ.trace = 1 := by
  obtain ⟨l, hl, rfl⟩ := h
  have hprob : filtProb sa s1a (mixSum l) = mixTr (mixMap (filterF2 sa s1a) l) := by
    rw [filtProb, filtState_mixSum, trace_mixSum]
  have h0 : 0 ≤ filtProb sa s1a (mixSum l) := by
    rw [hprob]
    exact mixTr_nonneg _ (mixMap_nonneg _ _ hl)
  have h1 : filtProb sa s1a (mixSum l) ≤ 1 := by
    rw [hprob]
    calc mixTr (mixMap (filterF2 sa s1a) l)
        ≤ mixTr l := mixTr_mixMap_le _ _ hl (dotsq_filter_le sa s1a ha hb)
      _ = 1 := by rw [← trace_mixSum, t]
  refine ⟨h0, h1, ?_⟩
  intro σ p heq
  by_cases hz : filtProb sa s1a (mixSum l) = 0
  · simp [apply_filter, hz] at heq
  · simp only [apply_filter, hz, if_false, Prod.mk.injEq, Option.some.injEq] at heq
    obtain ⟨hσ, hp⟩ := heq
    constructor
    · refine ⟨mixScale (filtProb sa s1a (mixSum l))⁻¹ (mixMap (filterF2 sa s1a) l), ?_, ?_⟩
      · exact mixScale_nonneg _ _ (inv_nonneg.2 h0) (mixMap_nonneg _ _ hl)
      · rw [mixSum_mixScale, ← filtState_mixSum, hσ]
    · rw [← hσ, Matrix.trace_smul, ← filtProb, smul_eq_mul, inv_mul_cancel₀ hz]

/-! ## Key properties of the DEJMPS round -/

lemma rhoAfter_mixSum (l1 l2 : MixL 4) :
    rhoAfter (mixSum l1) (mixSum l2)
      = mixSum (mixMap CNOT_B (mixMap CNOT_A (mixKron l1 l2))) := by
  rw [mixSum_mixMap, mixSum_mixMap, mixSum_mixKron]
  rfl

lemma dejmps_key (ρ1 ρ2 : Mat 4) (h1 : MixRep ρ1) (h2 : MixRep ρ2)
    (t1 : ρ1.trace = 1) (t2 : ρ2.trace = 1) :
    0 ≤ dejmpsProb ρ1 ρ2 ∧ dejmpsProb ρ1 ρ2 ≤ 1 ∧
      ∀ σ p, dejmps_purify ρ1 ρ2 = (some σ, p) → MixRep σ ∧ σ.trace = 1 := by
  obtain ⟨l1, hl1, rfl⟩ := h1
  obtain ⟨l2, hl2, rfl⟩ := h2
  have hbn : ∀ q ∈ mixMap CNOT_B (mixMap CNOT_A (mixKron l1 l2)), 0 ≤ q.1 :=
    mixMap_nonneg _ _ (mixMap_nonneg _ _ (mixKron_nonneg _ _ hl1 hl2))
  have hbtr : mixTr (mixMap CNOT_B (mixMap CNOT_A (mixKron l1 l2))) = 1 := by
    rw [mixTr_mixMap_eq _ _ (dotsq_mulVec_orthogonal CNOT_B CNOT_B_orthogonal),
      mixTr_mixMap_eq _ _ (dotsq_mulVec_orthogonal CNOT_A CNOT_A_orthogonal),
      mixTr_mixKron, ← trace_mixSum, ← trace_mixSum, t1, t2, mul_one]
  have hp00 : (proj00 * rhoAfter (mixSum l1) (mixSum l2) * proj00).trace
      = mixTr (mixMap proj00 (mixMap CNOT_B (mixMap CNOT_A (mixKron l1 l2)))) := by
    rw [rhoAfter_mixSum]
    nth_rewrite 2 [← proj00_transpose]
    rw [← mixSum_mixMap, trace_mixSum]
  have hp11 : (proj11 * rhoAfter (mixSum l1) (mixSum l2) * proj11).trace
      = mixTr (mixMap proj11 (mixMap CNOT_B (mixMap CNOT_A (mixKron l1 l2)))) := by
    rw [rhoAfter_mixSum]
    nth_rewrite 2 [← proj11_transpose]
    rw [← mixSum_mixMap, trace_mixSum]
  have h00n : 0 ≤ mixTr (mixMap proj00 (mixMap CNOT_B (mixMap CNOT_A (mixKron l1 l2)))) :=
    mixTr_nonneg _ (mixMap_nonneg _ _ hbn)
  have h11n : 0 ≤ mixTr (mixMap proj11 (mixMap CNOT_B (mixMap CNOT_A (mixKron l1 l2)))) :=
    mixTr_nonneg _ (mixMap_nonneg _ _ hbn)
  have hprob : dejmpsProb (mixSum l1) (mixSum l2)
      = mixTr (mixMap proj00 (mixMap CNOT_B (mixMap CNOT_A (mixKron l1 l2))))
        + mixTr (mixMap proj11 (mixMap CNOT_B (mixMap CNOT_A (mixKron l1 l2)))) := by
    rw [dejmpsProb, hp00, hp11]
  have h0 : 0 ≤ dejmpsProb (mixSum l1) (mixSum l2) := by
    rw [hprob]
    linarith
  have h1 : dejmpsProb (mixSum l1) (mixSum l2) ≤ 1 := by
    rw [hprob, ← hbtr]
    exact mixTr_mixMap_pair_le _ _ _ hbn dotsq_proj_pair
  refine ⟨h0, h1, ?_⟩
  intro σ p heq
  by_cases hz : dejmpsProb (mixSum l1) (mixSum l2) = 0
  · simp [dejmps_purify, hz] at heq
  · simp only [dejmps_purify, hz, if_false, Prod.mk.injEq, Option.some.injEq] at heq
    obtain ⟨hσ, hp⟩ := heq
    have hsum : proj00 * rhoAfter (mixSum l1) (mixSum l2) * proj00
        + proj11 * rhoAfter (mixSum l1) (mixSum l2) * proj11
        = mixSum (mixMap proj00 (mixMap CNOT_B (mixMap CNOT_A (mixKron l1 l2)))
          ++ mixMap proj11 (mixMap CNOT_B (mixMap CNOT_A (mixKron l1 l2)))) := by
      rw [mixSum_append, rhoAfter_mixSum]
      nth_rewrite 2 [← proj00_transpose]
      nth_rewrite 2 [← proj11_transpose]
      rw [← mixSum_mixMap, ← mixSum_mixMap]
    constructor
    · refine ⟨mixPt (mixScale (dejmpsProb (mixSum l1) (mixSum l2))⁻¹
        (mixMap proj00 (mixMap CNOT_B (mixMap CNOT_A (mixKron l1 l2)))
          ++ mixMap proj11 (mixMap CNOT_B (mixMap CNOT_A (mixKron l1 l2))))), ?_, ?_⟩
      · refine mixPt_nonneg _ (mixScale_nonneg _ _ (inv_nonneg.2 h0) ?_)
        intro q hq
        rcases List.mem_append.1 hq with hq | hq
        · exact mixMap_nonneg _ _ hbn q hq
        · exact mixMap_nonneg _ _ hbn q hq
      · rw [mixSum_mixPt, mixSum_mixScale, ← hsum, hσ]
    · rw [← hσ, trace_ptrace01, Matrix.trace_smul, Matrix.trace_add, ← dejmpsProb,
        smul_eq_mul, inv_mul_cancel₀ hz]

/-! ## simulate.py : simulate_run -/

/-- The noisy Bell pair `two_qubit_noise(bell.proj(), γ, p)`. -/
def noisyBell (sg s1g sp s1p : ℚ) : Mat 4 := two_qubit_noise sg s1g sp s1p bellProj

/-- Overlap `(bell_proj * rho).tr()` with the ideal Bell state. -/
def overlap (ρ : Mat 4) : ℚ := (bellProj * ρ).trace

/-- The loop of `simulate.simulate_run`: `depth` DEJMPS rounds of the current
pair against the fixed second pair `rho2`, failing to `(0, 0)` at the first
round with zero success probability.  `fidC` stands for the irrational
`qt.fidelity(·, bell)` applied to the final state. -/
def simLoop (fidC : Mat 4 → ℚ) (rho2 : Mat 4) : ℕ → Mat 4 → ℚ → ℚ × ℚ
  | 0, cur, y => (fidC cur, y)
  | d + 1, cur, y =>
    match dejmps_purify cur rho2 with
    | (none, _) => (0, 0)
    | (some nxt, pr) => if pr = 0 then (0, 0) else simLoop fidC rho2 d nxt (y * pr)

/-- `simulate.simulate_run`: generates the two noisy pairs once before the
loop, then runs `depth` purification rounds reusing the same `rho2`. -/
def simulate_run (fidC : Mat 4 → ℚ) (sg s1g sp s1p : ℚ) (depth : ℕ) : ℚ × ℚ :=
  simLoop fidC (noisyBell sg s1g sp s1p) depth (noisyBell sg s1g sp s1p) 1

/-- Modelled from the spec: the single-branch cascade whose every round
purifies the current pair against a freshly generated second noisy pair (a
new sample of the noise channel applied to the ideal Bell state each round). -/
def simLoopFresh (fidC : Mat 4 → ℚ) (sg s1g sp s1p : ℚ) : ℕ → Mat 4 → ℚ → ℚ × ℚ
  | 0, cur, y => (fidC cur, y)
  | d + 1, cur, y =>
    match dejmps_purify cur (two_qubit_noise sg s1g sp s1p bellProj) with
    | (none, _) => (0, 0)
    | (some nxt, pr) =>
        if pr = 0 then (0, 0) else simLoopFresh fidC sg s1g sp s1p d nxt (y * pr)

/-- Modelled from the spec: `simulate_run` with a fresh second pair per round. -/
def simulate_run_fresh (fidC : Mat 4 → ℚ) (sg s1g sp s1p : ℚ) (depth : ℕ) : ℚ × ℚ :=
  simLoopFresh fidC sg s1g sp s1p depth (two_qubit_noise sg s1g sp s1p bellProj) 1

/-- The rounds of the single-branch cascade, collecting the per-round success
probabilities; `none` when some round fails. -/
def simRounds (rho2 : Mat 4) : ℕ → Mat 4 → Option (Mat 4 × List ℚ)
  | 0, cur => some (cur, [])
  | d + 1, cur =>
    match dejmps_purify cur rho2 with
    | (none, _) => none
    | (some nxt, pr) =>
        if pr = 0 then none
        else match simRounds rho2 d nxt with
          | none => none
          | some (f, l) => some (f, pr :: l)

/-! ## lookup_table.py : run_trial, process_task -/

/-- The loop of `lookup_table.run_trial`: filter the current pair, generate
and filter a fresh noisy pair, purify, accumulate the three probabilities into
the yield, and fail to `(0, 0)` on any zero probability. -/
def trialLoop (sg s1g sp s1p sa s1a : ℚ) : ℕ → Mat 4 → ℚ → ℚ × ℚ
  | 0, rho, y => (overlap rho, y)
  | d + 1, rho, y =>
    match apply_filter sa s1a rho with
    | (none, _) => (0, 0)
    | (some fr, pf) =>
      match apply_filter sa s1a (noisyBell sg s1g sp s1p) with
      | (none, _) => (0, 0)
      | (some fr2, pf2) =>
        match dejmps_purify fr fr2 with
        | (none, _) => (0, 0)
        | (some purho, psucc) =>
            if psucc = 0 then (0, 0)
            else trialLoop sg s1g sp s1p sa s1a d purho (y * pf * pf2 * psucc)

/-- `lookup_table.run_trial`. -/
def run_trial (sg s1g sp s1p sa s1a : ℚ) (d : ℕ) : ℚ × ℚ :=
  trialLoop sg s1g sp s1p sa s1a d (noisyBell sg s1g sp s1p) 1

/-- The rounds of `run_trial`, collecting each round's success probability
`pf * pf2 * psucc`; `none` when some round fails. -/
def trialRounds (sg s1g sp s1p sa s1a : ℚ) : ℕ → Mat 4 → Option (Mat 4 × List ℚ)
  | 0, rho => some (rho, [])
  | d + 1, rho =>
    match apply_filter sa s1a rho with
    | (none, _) => none
    | (some fr, pf) =>
      match apply_filter sa s1a (noisyBell sg s1g sp s1p) with
      | (none, _) => none
      | (some fr2, pf2) =>
        match dejmps_purify fr fr2 with
        | (none, _) => none
        | (some purho, psucc) =>
            if psucc = 0 then none
            else match trialRounds sg s1g sp s1p sa s1a d purho with
              | none => none
              | some (f, l) => some (f, (pf * pf2 * psucc) :: l)

/-- `lookup_table.process_task`: averages `run_trial` over `T` Monte-Carlo
trials for grid cell `(i, j)` and candidate `(d, alpha)`; `np.mean` is the
sum divided by the length. -/
def process_task (sg s1g sp s1p alpha sa s1a : ℚ) (i j d T : ℕ) :
    ℕ × ℕ × ℕ × ℚ × ℚ × ℚ :=
  let fl := (List.range T).map fun _ => (run_trial sg s1g sp s1p sa s1a d).1
  let yl := (List.range T).map fun _ => (run_trial sg s1g sp s1p sa s1a d).2
  (i, j, d, alpha, fl.sum / (fl.length : ℚ), yl.sum / (yl.length : ℚ))

/-! ## lookup_table.py : the per-cell aggregation step -/

/-- One Monte-Carlo candidate result `(avg_f, avg_y, d, alpha)` for a cell. -/
structure Cand where
  f : ℚ
  y : ℚ
  d : ℕ
  alpha : ℚ
deriving DecidableEq

/-- The per-cell best trackers `(best_fid, best_yield, best_d, best_alpha)`. -/
structure BestState where
  fid : ℚ
  yld : ℚ
  d : ℕ
  alpha : ℚ
deriving DecidableEq

/-- One step of the aggregation loop in `lookup_table.__main__`: an eligible
candidate (`avg_f ≥ Ftarget`) replaces the best when it strictly improves the
yield; otherwise a candidate replaces the best when it strictly improves the
fidelity. -/
def updateCell (Ft : ℚ) (s : BestState) (c : Cand) : BestState :=
  if c.f ≥ Ft then
    (if c.y > s.yld then ⟨c.f, c.y, c.d, c.alpha⟩ else s)
  else if c.f > s.fid then ⟨c.f, c.y, c.d, c.alpha⟩ else s

/-! ## adaptive.py : single-qubit noise, channel estimation, tree cascade -/

/-- `adaptive.single_qubit_noise`: the composed Kraus list
`[b*a for a in amp_damp_kraus(γ) for b in phase_damp_kraus(p)]` applied to a
single-qubit state. -/
def single_qubit_noise (sg s1g sp s1p : ℚ) (ρ : Mat 2) : Mat 2 :=
  ((amp_damp_kraus sg s1g).flatMap fun a =>
    (phase_damp_kraus sp s1p).map fun b => (b * a) * ρ * (b * a).transpose).sum

/-- `qt.basis(2,1) * qt.basis(2,1).dag()`, the projector onto `|1⟩`. -/
def proj1m : Mat 2 := !![0, 0; 0, 1]

/-- The projector onto `|+⟩ = (|0⟩+|1⟩)/√2`. -/
def plusProj : Mat 2 := !![1/2, 1/2; 1/2, 1/2]

/-- The projector onto `|−⟩ = (|0⟩−|1⟩)/√2`. -/
def minusProj : Mat 2 := !![1/2, -(1/2); -(1/2), 1/2]

/-- `adaptive.estimate_channel` (identical in `data_extraction.py` up to a
redundant `.real`): Bernoulli-samples the amplitude probe `N` times and the
phase probe `M` times from the stream `r` of `np.random.rand()` draws, and
returns `(γ̂, p̂, N + M)`. -/
def estimate_channel (r : ℕ → ℚ) (sg s1g sp s1p : ℚ) (N M : ℕ) : ℚ × ℚ × ℕ :=
  let q1 := (proj1m * single_qubit_noise sg s1g 0 1 proj1m).trace
  let n1 := ((List.range N).filter fun i => r i < q1).length
  let ghat := 1 - (n1 : ℚ) / (N : ℚ)
  let q2 := (minusProj * single_qubit_noise 0 1 sp s1p plusProj).trace
  let mm := ((List.range M).filter fun i => r (N + i) < q2).length
  let phat := 2 * (mm : ℚ) / (M : ℚ)
  (ghat, phat, N + M)

/-- The filtering list comprehension of `adaptive.static_purification`: each
surviving pair is filtered and kept when `np.random.rand() < pf`; the random
draw is consumed only when the filter returns a state (short-circuit of
`rho_f is not None and np.random.rand() < pf`). -/
def filterPass (sa s1a : ℚ) (rand : ℕ → ℚ) : List (Mat 4) → ℕ → List (Mat 4) × ℕ
  | [], k => ([], k)
  | ρ :: rest, k =>
    match apply_filter sa s1a ρ with
    | (none, _) => filterPass sa s1a rand rest k
    | (some f, pf) =>
        let t := filterPass sa s1a rand rest (k + 1)
        if rand k < pf then (f :: t.1, t.2) else t

/-- The pairing loop of `adaptive.static_purification`: consecutive pairs of
survivors are purified and kept when `np.random.rand() < pp`; an odd leftover
is dropped. -/
def pairPass (rand : ℕ → ℚ) : List (Mat 4) → ℕ → List (Mat 4) × ℕ
  | ra :: rb :: rest, k =>
    (match dejmps_purify ra rb with
    | (none, _) => pairPass rand rest k
    | (some p, pp) =>
        let t := pairPass rand rest (k + 1)
        if rand k < pp then (p :: t.1, t.2) else t)
  | _, k => ([], k)

/-- The per-level loop of `adaptive.static_purification`: filter, shuffle
(`shuf` models `np.random.shuffle`), pair up, and stop early on an empty
survivor set. -/
def levelLoop (rand : ℕ → ℚ) (shuf : ℕ → List (Mat 4) → List (Mat 4)) (sa s1a : ℚ) :
    ℕ → List (Mat 4) × ℕ → List (Mat 4) × ℕ
  | 0, st => st
  | d + 1, st =>
    let f1 := filterPass sa s1a rand st.1 st.2
    let sh := shuf (d + 1) f1.1
    let nw := pairPass rand sh f1.2
    match nw.1 with
    | [] => nw
    | _ => levelLoop rand shuf sa s1a d nw

/-- The survivor list produced by the tree cascade of
`adaptive.static_purification`. -/
def staticSurvivors (rand : ℕ → ℚ) (shuf : ℕ → List (Mat 4) → List (Mat 4))
    (sg s1g sp s1p sa s1a : ℚ) (d : ℕ) : List (Mat 4) :=
  (levelLoop rand shuf sa s1a d
    ((List.range (2 ^ d)).map fun _ => noisyBell sg s1g sp s1p, 0)).1

/-- `adaptive.static_purification`: start from `2^d` noisy pairs, run `d`
levels of filter + shuffle + pairwise DEJMPS, and report
`(mean qt.fidelity of survivors (0 if none), survivors / 2^d)`; `fidC`
stands for the irrational `qt.fidelity(·, bell_state)`. -/
def static_purification (fidC : Mat 4 → ℚ) (rand : ℕ → ℚ)
    (shuf : ℕ → List (Mat 4) → List (Mat 4)) (sg s1g sp s1p sa s1a : ℚ) (d : ℕ) :
    ℚ × ℚ :=
  let surv := staticSurvivors rand shuf sg s1g sp s1p sa s1a d
  let Y : ℚ := if 0 < 2 ^ d then (surv.length : ℚ) / ((2 ^ d : ℕ) : ℚ) else 0
  let F : ℚ := if 0 < surv.length then (surv.map fidC).sum / (surv.length : ℚ) else 0
  (F, Y)

/-! ## Numeric value lemmas for `Fin` literals -/

lemma fin2v0 : ((0 : Fin 2) : ℕ) = 0 := rfl

lemma fin2v1 : ((1 : Fin 2) : ℕ) = 1 := rfl

lemma fin4v0 : ((0 : Fin 4) : ℕ) = 0 := rfl

lemma fin4v1 : ((1 : Fin 4) : ℕ) = 1 := rfl

lemma fin4v2 : ((2 : Fin 4) : ℕ) = 2 := rfl

lemma fin4v3 : ((3 : Fin 4) : ℕ) = 3 := rfl

lemma fourEq : (2 * 2 : ℕ) = 4 := rfl

lemma sixteenEq : (4 * 4 : ℕ) = 16 := rfl

lemma sum_fin22 (f : Fin (2 * 2) → ℚ) :
    (∑ i, f i) = f ⟨0, by norm_num⟩ + f ⟨1, by norm_num⟩ + f ⟨2, by norm_num⟩
      + f ⟨3, by norm_num⟩ :=
  Fin.sum_univ_four f

/-! ## Claim C1 -/

/-- Combined single-qubit channel Kraus set described by the spec: amplitude
damping composed with phase damping, `[b*a for a in A for b in B]` exactly as
in `adaptive.single_qubit_noise`. -/
def combined_kraus (sg s1g sp s1p : ℚ) : List (Mat 2) :=
  (amp_damp_kraus sg s1g).flatMap fun a =>
    (phase_damp_kraus sp s1p).map fun b => b * a

/-- Modelled from the spec: the channel claimed by C1, the tensor product of
two identical combined single-qubit `(γ, p)` channels acting on the two
qubits independently. -/
def spec_two_qubit_noise (sg s1g sp s1p : ℚ) (ρ : Mat 4) : Mat 4 :=
  ((combined_kraus sg s1g sp s1p).flatMap fun k1 =>
    (combined_kraus sg s1g sp s1p).map fun k2 => applyK ρ (kron k1 k2)).sum

/-- Amplitude damping acting on qubit 0 only (Kraus operators `k ⊗ I`). -/
def ampOnQubit0 (sg s1g : ℚ) (ρ : Mat 4) : Mat 4 :=
  ((amp_damp_kraus sg s1g).map fun k => applyK ρ (kron k qeye2)).sum

/-- Phase damping acting on qubit 1 only (Kraus operators `I ⊗ k`). -/
def phaseOnQubit1 (sp s1p : ℚ) (ρ : Mat 4) : Mat 4 :=
  ((phase_damp_kraus sp s1p).map fun k => applyK ρ (kron qeye2 k)).sum

/-- The density matrix `|11⟩⟨11|`, a valid 2-qubit state. -/
def e11 : Mat 4 := !![0, 0, 0, 0; 0, 0, 0, 0; 0, 0, 0, 0; 0, 0, 0, 1]

lemma applyK_applyK (ρ A B : Mat 4) : applyK (applyK ρ A) B = applyK ρ (B * A) := by
  simp [applyK, Matrix.transpose_mul, Matrix.mul_assoc]

lemma conj_through_kron (a b : Mat 2) (ρ : Mat 4) :
    applyK (applyK ρ (kron a qeye2)) (kron qeye2 b) = applyK ρ (kron a b) := by
  rw [applyK_applyK, kron_mul_kron, show (qeye2 : Mat 2) = 1 from rfl, Matrix.one_mul,
    Matrix.mul_one]

/-- C1 (amended): the implemented channel applies amplitude damping to qubit 0
and phase damping to qubit 1 — the composition of two different single-qubit
channels acting on the two qubits — not the same combined `(γ, p)` channel on
each of the two qubits. -/
theorem C1_amended_noise_factorizes (sg s1g sp s1p : ℚ) (ρ : Mat 4) :
    two_qubit_noise sg s1g sp s1p ρ = phaseOnQubit1 sp s1p (ampOnQubit0 sg s1g ρ) := by
  simp only [two_qubit_noise, phaseOnQubit1, ampOnQubit0, amp_damp_kraus, phase_damp_kraus,
    List.flatMap_cons, List.map_cons, List.map_nil, List.flatMap_nil, List.append_nil,
    List.sum_cons, List.sum_nil, List.cons_append, List.nil_append, add_zero]
  have hd : ∀ (X Y K : Mat 4), applyK (X + Y) K = applyK X K + applyK Y K := by
    intro X Y K
    simp [applyK, Matrix.mul_add, Matrix.add_mul]
  rw [hd, hd]
  rw [conj_through_kron, conj_through_kron, conj_through_kron, conj_through_kron]
  abel

/-- C1 is false on the code: with `γ = 1, p = 0` the code sends `|11⟩⟨11|` to
`|01⟩⟨01|` (amplitude damping hits only qubit 0), while the claimed tensor
square of the combined channel sends it to `|00⟩⟨00|`; the two channels give
different matrices. -/
theorem C1_counterexample :
    two_qubit_noise 1 0 0 1 e11 1 1 = 1
    ∧ spec_two_qubit_noise 1 0 0 1 e11 1 1 = 0
    ∧ two_qubit_noise 1 0 0 1 e11 ≠ spec_two_qubit_noise 1 0 0 1 e11 := by
  have h1 : two_qubit_noise 1 0 0 1 e11 1 1 = 1 := by
    norm_num [two_qubit_noise, amp_damp_kraus, phase_damp_kraus, applyK, e11, kron, qeye2,
      sigmazM, Matrix.mul_apply, Fin.sum_univ_four, sum_fin22, Matrix.transpose_apply,
      Matrix.smul_apply, Matrix.one_apply, Fin.divNat, Fin.modNat, Matrix.vecHead,
      Matrix.vecTail, fin4v0, fin4v1, fin4v2, fin4v3]
  have h2 : spec_two_qubit_noise 1 0 0 1 e11 1 1 = 0 := by
    norm_num [spec_two_qubit_noise, combined_kraus, amp_damp_kraus, phase_damp_kraus,
      applyK, e11, kron, qeye2, sigmazM, Matrix.mul_apply, Fin.sum_univ_four, sum_fin22,
      Fin.sum_univ_two, Matrix.transpose_apply, Matrix.smul_apply, Matrix.one_apply,
      Fin.divNat, Fin.modNat, Matrix.vecHead, Matrix.vecTail, fin4v0, fin4v1, fin4v2,
      fin4v3, fin2v0, fin2v1]
  refine ⟨h1, h2, fun hcontra => ?_⟩
  rw [hcontra] at h1
  rw [h1] at h2
  norm_num at h2

/-! ## Claim C5 -/

lemma updateCell_fid_ge (Ft : ℚ) (s : BestState) (c : Cand) (hs : Ft ≤ s.fid) :
    Ft ≤ (updateCell Ft s c).fid := by
  unfold updateCell
  by_cases h1 : c.f ≥ Ft
  · rw [if_pos h1]
    by_cases h2 : c.y > s.yld
    · rw [if_pos h2]
      exact h1
    · rw [if_neg h2]
      exact hs
  · rw [if_neg h1]
    by_cases h2 : c.f > s.fid
    · exact absurd (lt_of_le_of_lt hs h2).le h1
    · rw [if_neg h2]
      exact hs

lemma updateCell_skip (Ft : ℚ) (s : BestState) (c : Cand) (hs : Ft ≤ s.fid)
    (hc : c.f < Ft) : updateCell Ft s c = s := by
  unfold updateCell
  rw [if_neg (not_le.mpr hc), if_neg (not_lt.mpr (le_trans hc.le hs))]

/-- C5: in the per-cell aggregation loop, once an eligible candidate (mean
fidelity at least `Ftarget`) has been recorded as the cell's best, processing
any later stream of candidate results gives the same best state as processing
only its eligible candidates — candidates with mean fidelity below the target
never overwrite any recorded value, in any arrival order. -/
theorem C5_ineligible_never_overwrites (Ft : ℚ) (s0 : BestState) (c0 : Cand)
    (hel : Ft ≤ c0.f) (hrec : updateCell Ft s0 c0 ≠ s0) (cs : List Cand) :
    cs.foldl (updateCell Ft) (updateCell Ft s0 c0)
      = (cs.filter fun c => Ft ≤ c.f).foldl (updateCell Ft) (updateCell Ft s0 c0) := by
  have hfid : Ft ≤ (updateCell Ft s0 c0).fid := by
    unfold updateCell at hrec ⊢
    rw [if_pos hel] at hrec ⊢
    by_cases h2 : c0.y > s0.yld
    · rw [if_pos h2]
      exact hel
    · rw [if_neg h2] at hrec
      exact absurd rfl hrec
  suffices h : ∀ (cs : List Cand) (s : BestState), Ft ≤ s.fid →
      cs.foldl (updateCell Ft) s = (cs.filter fun c => Ft ≤ c.f).foldl (updateCell Ft) s from
    h cs _ hfid
  intro cs
  induction cs with
  | nil => intro s _; rfl
  | cons c cs ih =>
      intro s hs
      by_cases hc : Ft ≤ c.f
      · rw [List.foldl_cons, List.filter_cons_of_pos (by simpa using hc), List.foldl_cons]
        exact ih _ (updateCell_fid_ge Ft s c hs)
      · rw [List.foldl_cons, List.filter_cons_of_neg (by simpa using hc),
          updateCell_skip Ft s c hs (lt_of_not_le hc)]
        exact ih _ hs

/-- Witness for C5 at a concrete recorded eligible candidate and a later
ineligible candidate. -/
theorem C5_witness :
    ((9 : ℚ)/10 ≤ 19/20
      ∧ updateCell (9/10) ⟨0, 0, 0, 0⟩ ⟨19/20, 1/2, 1, 1/2⟩ ≠ ⟨0, 0, 0, 0⟩)
    ∧ [(⟨1/2, 9, 2, 1/3⟩ : Cand)].foldl (updateCell (9/10))
          (updateCell (9/10) ⟨0, 0, 0, 0⟩ ⟨19/20, 1/2, 1, 1/2⟩)
        = ([(⟨1/2, 9, 2, 1/3⟩ : Cand)].filter fun c => (9 : ℚ)/10 ≤ c.f).foldl
            (updateCell (9/10)) (updateCell (9/10) ⟨0, 0, 0, 0⟩ ⟨19/20, 1/2, 1, 1/2⟩) :=
  ⟨⟨by norm_num, by norm_num [updateCell]⟩,
    C5_ineligible_never_overwrites (9/10) ⟨0, 0, 0, 0⟩ ⟨19/20, 1/2, 1, 1/2⟩
      (by norm_num) (by norm_num [updateCell]) [⟨1/2, 9, 2, 1/3⟩]⟩

/-! ## Claim C9 -/

lemma amp_probe_value :
    (proj1m * single_qubit_noise 0 1 0 1 proj1m).trace = 1 := by
  norm_num [single_qubit_noise, amp_damp_kraus, phase_damp_kraus, proj1m, qeye2, sigmazM,
    Matrix.trace, Matrix.diag, Matrix.mul_apply, Fin.sum_univ_two, Matrix.vecHead,
    Matrix.vecTail, Matrix.smul_apply, Matrix.transpose_apply, Matrix.one_apply]

lemma phase_probe_value :
    (minusProj * single_qubit_noise 0 1 0 1 plusProj).trace = 0 := by
  norm_num [single_qubit_noise, amp_damp_kraus, phase_damp_kraus, plusProj, minusProj,
    qeye2, sigmazM, Matrix.trace, Matrix.diag, Matrix.mul_apply, Fin.sum_univ_two,
    Matrix.vecHead, Matrix.vecTail, Matrix.smul_apply, Matrix.transpose_apply,
    Matrix.one_apply]

/-- C9: with zero true noise the amplitude probe succeeds on all `N` trials
and the phase probe on none of the `M` trials, whatever the random draws in
`[0,1)`, so `estimate_channel` returns exactly `γ̂ = 0`, `p̂ = 0` and probe
cost `N + M`. -/
theorem C9_estimate_channel_noiseless (r : ℕ → ℚ) (N M : ℕ) (hN : 0 < N) (hM : 0 < M)
    (hr : ∀ i, 0 ≤ r i ∧ r i < 1) :
    estimate_channel r 0 1 0 1 N M = (0, 0, N + M) := by
  have hf1 : ((List.range N).filter fun i => decide (r i < 1)) = List.range N := by
    refine List.filter_eq_self.mpr ?_
    intro a _
    simpa using (hr a).2
  have hf2 : ((List.range M).filter fun i => decide (r (N + i) < 0)) = [] := by
    refine List.filter_eq_nil_iff.mpr ?_
    intro a _
    simpa using not_lt.mpr (hr (N + a)).1
  have hNQ : (N : ℚ) ≠ 0 := Nat.cast_ne_zero.mpr hN.ne'
  unfold estimate_channel
  simp only [amp_probe_value, phase_probe_value, hf1, hf2, List.length_range,
    List.length_nil, Nat.cast_zero]
  rw [div_self hNQ]
  norm_num

/-- Witness for C9 at `N = M = 1` with the constant draw `1/2`. -/
theorem C9_witness :
    ((0 : ℕ) < 1 ∧ (∀ i : ℕ, 0 ≤ ((fun _ : ℕ => (1 : ℚ)/2) i)
        ∧ ((fun _ : ℕ => (1 : ℚ)/2) i) < 1))
    ∧ estimate_channel (fun _ : ℕ => (1 : ℚ)/2) 0 1 0 1 1 1 = (0, 0, 1 + 1) :=
  ⟨⟨by norm_num, fun i => ⟨by norm_num, by norm_num⟩⟩,
    C9_estimate_channel_noiseless (fun _ => 1/2) 1 1 (by norm_num) (by norm_num)
      (fun i => ⟨by norm_num, by norm_num⟩)⟩

/-! ## Claim C10 -/

/-- C10: `run_trial` draws no random numbers, so the Monte-Carlo averages of
`process_task` over `T > 0` identical trials are exactly the values of a
single trial. -/
theorem C10_process_task_deterministic (sg s1g sp s1p alpha sa s1a : ℚ)
    (i j d T : ℕ) (hT : 0 < T) :
    process_task sg s1g sp s1p alpha sa s1a i j d T
      = (i, j, d, alpha, (run_trial sg s1g sp s1p sa s1a d).1,
          (run_trial sg s1g sp s1p sa s1a d).2) := by
  have key : ∀ x : ℚ,
      (((List.range T).map fun _ => x).sum / ((((List.range T).map fun _ => x).length : ℕ) : ℚ)) = x := by
    intro x
    have hrep : ((List.range T).map fun _ => x) = List.replicate T x := by
      refine List.eq_replicate_iff.mpr ⟨?_, ?_⟩
      · rw [List.length_map, List.length_range]
      · intro b hb
        rcases List.mem_map.1 hb with ⟨a, _, rfl⟩
        rfl
    rw [hrep, List.sum_replicate, List.length_replicate, nsmul_eq_mul]
    exact mul_div_cancel_left₀ x (Nat.cast_ne_zero.mpr hT.ne')
  unfold process_task
  simp only []
  rw [key, key]

/-! ## Claim C2 -/

lemma simLoop_eq_fresh (fidC : Mat 4 → ℚ) (sg s1g sp s1p : ℚ) :
    ∀ (d : ℕ) (cur : Mat 4) (y : ℚ),
      simLoop fidC (noisyBell sg s1g sp s1p) d cur y
        = simLoopFresh fidC sg s1g sp s1p d cur y := by
  intro d
  induction d with
  | zero => intro cur y; rfl
  | succ d ih =>
      intro cur y
      have hnb : two_qubit_noise sg s1g sp s1p bellProj = noisyBell sg s1g sp s1p := rfl
      simp only [simLoop, simLoopFresh, hnb]
      rcases hd : dejmps_purify cur (noisyBell sg s1g sp s1p) with ⟨o, pr⟩
      cases o with
      | none => simp [hd]
      | some nxt =>
          by_cases hz : pr = 0
          · simp [hd, hz]
          · simp [hd, hz, ih]

lemma simLoop_rounds (fidC : Mat 4 → ℚ) (rho2 : Mat 4) :
    ∀ (d : ℕ) (cur : Mat 4) (y : ℚ),
      (simRounds rho2 d cur = none → simLoop fidC rho2 d cur y = (0, 0))
      ∧ ∀ f l, simRounds rho2 d cur = some (f, l) →
          simLoop fidC rho2 d cur y = (fidC f, y * l.prod) ∧ l.length = d := by
  intro d
  induction d with
  | zero =>
      intro cur y
      constructor
      · intro h
        exact absurd h (by simp [simRounds])
      · intro f l h
        simp only [simRounds, Option.some.injEq, Prod.mk.injEq] at h
        obtain ⟨hf, hl⟩ := h
        subst hf
        subst hl
        simp [simLoop]
  | succ d ih =>
      intro cur y
      rcases hd : dejmps_purify cur rho2 with ⟨o, pr⟩
      cases o with
      | none =>
          constructor
          · intro _
            simp only [simLoop]
            rw [hd]
          · intro f l h
            simp only [simRounds] at h
            rw [hd] at h
            simp at h
      | some nxt =>
          by_cases hz : pr = 0
          · constructor
            · intro _
              simp only [simLoop]
              rw [hd]
              simp [hz]
            · intro f l h
              simp only [simRounds] at h
              rw [hd] at h
              simp [hz] at h
          · constructor
            · intro h
              simp only [simRounds] at h
              rw [hd] at h
              simp only [hz, if_false] at h
              simp only [simLoop]
              rw [hd]
              simp only [hz, if_false]
              rcases hr : simRounds rho2 d nxt with _ | ⟨f, l⟩
              · exact (ih nxt (y * pr)).1 hr
              · rw [hr] at h
                simp at h
            · intro f l h
              simp only [simRounds] at h
              rw [hd] at h
              simp only [hz, if_false] at h
              simp only [simLoop]
              rw [hd]
              simp only [hz, if_false]
              rcases hr : simRounds rho2 d nxt with _ | ⟨f2, l2⟩
              · rw [hr] at h
                simp at h
              · rw [hr] at h
                simp only [Option.some.injEq, Prod.mk.injEq] at h
                obtain ⟨hf, hl⟩ := h
                have hih := (ih nxt (y * pr)).2 f2 l2 hr
                subst hf
                rw [← hl]
                refine ⟨?_, by simp [hih.2]⟩
                rw [hih.1, List.prod_cons]
                norm_num
                ring

lemma trialLoop_rounds (sg s1g sp s1p sa s1a : ℚ) :
    ∀ (d : ℕ) (rho : Mat 4) (y : ℚ),
      (trialRounds sg s1g sp s1p sa s1a d rho = none
          → trialLoop sg s1g sp s1p sa s1a d rho y = (0, 0))
      ∧ ∀ f l, trialRounds sg s1g sp s1p sa s1a d rho = some (f, l) →
          trialLoop sg s1g sp s1p sa s1a d rho y = (overlap f, y * l.prod) ∧ l.length = d := by
  intro d
  induction d with
  | zero =>
      intro rho y
      constructor
      · intro h
        exact absurd h (by simp [trialRounds])
      · intro f l h
        simp only [trialRounds, Option.some.injEq, Prod.mk.injEq] at h
        obtain ⟨hf, hl⟩ := h
        subst hf
        subst hl
        simp [trialLoop]
  | succ d ih =>
      intro rho y
      rcases h1 : apply_filter sa s1a rho with ⟨o1, pf⟩
      cases o1 with
      | none =>
          constructor
          · intro _
            simp [trialLoop, h1]
          · intro f l h
            simp [trialRounds, h1] at h
      | some fr =>
          rcases h2 : apply_filter sa s1a (noisyBell sg s1g sp s1p) with ⟨o2, pf2⟩
          cases o2 with
          | none =>
              constructor
              · intro _
                simp [trialLoop, h1, h2]
              · intro f l h
                simp [trialRounds, h1, h2] at h
          | some fr2 =>
              rcases h3 : dejmps_purify fr fr2 with ⟨o3, ps⟩
              cases o3 with
              | none =>
                  constructor
                  · intro _
                    simp [trialLoop, h1, h2, h3]
                  · intro f l h
                    simp [trialRounds, h1, h2, h3] at h
              | some purho =>
                  by_cases hz : ps = 0
                  · constructor
                    · intro _
                      simp [trialLoop, h1, h2, h3, hz]
                    · intro f l h
                      simp [trialRounds, h1, h2, h3, hz] at h
                  · constructor
                    · intro h
                      simp only [trialRounds, h1, h2, h3, hz, if_false] at h
                      simp only [trialLoop, h1, h2, h3, hz, if_false]
                      rcases hr : trialRounds sg s1g sp s1p sa s1a d purho with _ | ⟨f, l⟩
                      · exact (ih purho (y * pf * pf2 * ps)).1 hr
                      · rw [hr] at h
                        simp at h
                    · intro f l h
                      simp only [trialRounds, h1, h2, h3, hz, if_false] at h
                      simp only [trialLoop, h1, h2, h3, hz, if_false]
                      rcases hr : trialRounds sg s1g sp s1p sa s1a d purho with _ | ⟨f2, l2⟩
                      · rw [hr] at h
                        simp at h
                      · rw [hr] at h
                        simp only [Option.some.injEq, Prod.mk.injEq] at h
                        obtain ⟨hf, hl⟩ := h
                        have hih := (ih purho (y * pf * pf2 * ps)).2 f2 l2 hr
                        subst hf
                        rw [← hl]
                        refine ⟨?_, by simp [hih.2]⟩
                        rw [hih.1, List.prod_cons]
                        norm_num
                        ring

/-- C2: the single-branch cascade (i) is extensionally the cascade that
regenerates the second noisy pair freshly each round (the noise channel is a
deterministic map, so `simulate_run`'s reuse of `rho2` equals a fresh sample
per round), and (ii) runs exactly `d` rounds — returning the final fidelity
and the product of the per-round success probabilities — unless some round has
success probability zero, in which case it returns `(0, 0)`; likewise for
`run_trial`, whose per-round probability is `pf * pf2 * psucc`. -/
theorem C2_cascade_rounds (fidC : Mat 4 → ℚ) (sg s1g sp s1p sa s1a : ℚ) (d : ℕ) :
    simulate_run fidC sg s1g sp s1p d = simulate_run_fresh fidC sg s1g sp s1p d
    ∧ (match simRounds (noisyBell sg s1g sp s1p) d (noisyBell sg s1g sp s1p) with
       | none => simulate_run fidC sg s1g sp s1p d = (0, 0)
       | some (f, l) =>
           simulate_run fidC sg s1g sp s1p d = (fidC f, l.prod) ∧ l.length = d)
    ∧ (match trialRounds sg s1g sp s1p sa s1a d (noisyBell sg s1g sp s1p) with
       | none => run_trial sg s1g sp s1p sa s1a d = (0, 0)
       | some (f, l) =>
           run_trial sg s1g sp s1p sa s1a d = (overlap f, l.prod) ∧ l.length = d) := by
  refine ⟨simLoop_eq_fresh fidC sg s1g sp s1p d (noisyBell sg s1g sp s1p) 1, ?_, ?_⟩
  · rcases hr : simRounds (noisyBell sg s1g sp s1p) d (noisyBell sg s1g sp s1p)
      with _ | ⟨f, l⟩
    · exact (simLoop_rounds fidC (noisyBell sg s1g sp s1p) d (noisyBell sg s1g sp s1p) 1).1 hr
    · have h := (simLoop_rounds fidC (noisyBell sg s1g sp s1p) d
        (noisyBell sg s1g sp s1p) 1).2 f l hr
      rw [one_mul] at h
      exact h
  · rcases hr : trialRounds sg s1g sp s1p sa s1a d (noisyBell sg s1g sp s1p)
      with _ | ⟨f, l⟩
    · exact (trialLoop_rounds sg s1g sp s1p sa s1a d (noisyBell sg s1g sp s1p) 1).1 hr
    · have h := (trialLoop_rounds sg s1g sp s1p sa s1a d (noisyBell sg s1g sp s1p) 1).2 f l hr
      rw [one_mul] at h
      exact h

/-! ## Claim C4 -/

/-- The Kraus completeness sum `Σ Kᵀ K` of a single-qubit Kraus list. -/
def krausGram (l : List (Mat 2)) : Mat 2 := (l.map fun k => k.transpose * k).sum

lemma krausGram_phase : krausGram (phase_damp_kraus 1 0) = 1 := by
  ext i j
  fin_cases i <;> fin_cases j <;>
    norm_num [krausGram, phase_damp_kraus, qeye2, sigmazM, Matrix.mul_apply,
      Fin.sum_univ_two, Matrix.transpose_apply, Matrix.smul_apply, Matrix.one_apply,
      Matrix.vecHead, Matrix.vecTail]

lemma krausGram_phase_sim : krausGram (phase_damp_kraus_sim 1 0) = (1/4 : ℚ) • 1 := by
  ext i j
  fin_cases i <;> fin_cases j <;>
    norm_num [krausGram, phase_damp_kraus_sim, qeye2, sigmazM, Matrix.mul_apply,
      Fin.sum_univ_two, Matrix.transpose_apply, Matrix.smul_apply, Matrix.one_apply,
      Matrix.vecHead, Matrix.vecTail]

lemma sim_noise_trace_bell : (two_qubit_noise_sim 0 1 1 0 bellProj).trace = 1/4 := by
  norm_num [two_qubit_noise_sim, amp_damp_kraus, phase_damp_kraus_sim, applyK, bellProj,
    kron, qeye2, sigmazM, Matrix.trace, Matrix.diag, Matrix.mul_apply, Fin.sum_univ_four,
    sum_fin22, Matrix.transpose_apply, Matrix.smul_apply, Fin.divNat, Fin.modNat,
    Matrix.vecHead, Matrix.vecTail, fin4v0, fin4v1, fin4v2, fin4v3, fin2v0, fin2v1]

/-- C4 covers both `noise.two_qubit_noise` and the channel duplicated inside
`simulate.py`.  It holds for the former (the Kraus sets are complete and the
trace is preserved exactly) but the duplicate breaks it: its phase Kraus
operator is `√p·σz/2`, so at `p = 1, γ = 0` its phase Kraus completeness sum
is `I/4` instead of `I`, and it maps the Bell state (a trace-1
positive-semidefinite input) to a matrix of trace `1/4`, far outside `1e-9`
of `1`. -/
theorem C4_sim_channel_breaks_trace_preservation :
    krausGram (phase_damp_kraus 1 0) = 1
    ∧ (two_qubit_noise 0 1 1 0 bellProj).trace = 1
    ∧ krausGram (phase_damp_kraus_sim 1 0) = (1/4 : ℚ) • 1
    ∧ krausGram (phase_damp_kraus_sim 1 0) ≠ 1
    ∧ (two_qubit_noise_sim 0 1 1 0 bellProj).trace = 1/4 := by
  refine ⟨krausGram_phase, ?_, krausGram_phase_sim, ?_, sim_noise_trace_bell⟩
  · rw [noise_trace 0 1 1 0 (by norm_num) (by norm_num) bellProj, bellProj_trace]
  · rw [krausGram_phase_sim]
    intro hcontra
    have h00 := Matrix.ext_iff.2 hcontra 0 0
    norm_num [Matrix.smul_apply, Matrix.one_apply] at h00

/-! ## Claim C6 -/

lemma apply_filter_some_prob (sa s1a : ℚ) (ρ σ : Mat 4) (p : ℚ)
    (h : apply_filter sa s1a ρ = (some σ, p)) :
    p = filtProb sa s1a ρ ∧ filtProb sa s1a ρ ≠ 0 := by
  by_cases hz : filtProb sa s1a ρ = 0
  · simp [apply_filter, hz] at h
  · simp only [apply_filter, hz, if_false, Prod.mk.injEq, Option.some.injEq] at h
    exact ⟨h.2.symm, hz⟩

lemma dejmps_some_prob (ρ1 ρ2 σ : Mat 4) (p : ℚ)
    (h : dejmps_purify ρ1 ρ2 = (some σ, p)) :
    p = dejmpsProb ρ1 ρ2 ∧ dejmpsProb ρ1 ρ2 ≠ 0 := by
  by_cases hz : dejmpsProb ρ1 ρ2 = 0
  · simp [dejmps_purify, hz] at h
  · simp only [dejmps_purify, hz, if_false, Prod.mk.injEq, Option.some.injEq] at h
    exact ⟨h.2.symm, hz⟩

/-- C6: on trace-1 positive-semidefinite inputs, `apply_filter` returns
`(None, 0)` exactly when the filtered trace is zero and otherwise a trace-1
normalized state together with that trace as success probability;
`dejmps_purify` returns `(None, 0)` exactly when `p₀₀ + p₁₁ = 0` and
otherwise a trace-1 state with a success probability in `[0, 1]`; neither
function ever pairs a non-null state with probability 0. -/
theorem C6_failure_signaling (sa s1a : ℚ) (ρ ρ1 ρ2 : Mat 4)
    (_hρ : MixRep ρ) (_t0 : ρ.trace = 1)
    (h1 : MixRep ρ1) (t1 : ρ1.trace = 1) (h2 : MixRep ρ2) (t2 : ρ2.trace = 1) :
    (filtProb sa s1a ρ = 0 → apply_filter sa s1a ρ = (none, 0))
    ∧ (filtProb sa s1a ρ ≠ 0 →
        apply_filter sa s1a ρ
          = (some ((filtProb sa s1a ρ)⁻¹ • filtState sa s1a ρ), filtProb sa s1a ρ)
        ∧ ((filtProb sa s1a ρ)⁻¹ • filtState sa s1a ρ).trace = 1)
    ∧ (dejmpsProb ρ1 ρ2 = 0 → dejmps_purify ρ1 ρ2 = (none, 0))
    ∧ (dejmpsProb ρ1 ρ2 ≠ 0 →
        ∃ σ, dejmps_purify ρ1 ρ2 = (some σ, dejmpsProb ρ1 ρ2) ∧ σ.trace = 1)
    ∧ 0 ≤ dejmpsProb ρ1 ρ2
    ∧ dejmpsProb ρ1 ρ2 ≤ 1
    ∧ (∀ σ p, apply_filter sa s1a ρ = (some σ, p) → p ≠ 0)
    ∧ (∀ σ p, dejmps_purify ρ1 ρ2 = (some σ, p) → p ≠ 0) := by
  obtain ⟨k0, k1, kout⟩ := dejmps_key ρ1 ρ2 h1 h2 t1 t2
  refine ⟨?_, ?_, ?_, ?_, k0, k1, ?_, ?_⟩
  · intro hz
    simp [apply_filter, hz]
  · intro hz
    refine ⟨by simp [apply_filter, hz], ?_⟩
    rw [Matrix.trace_smul, ← filtProb, smul_eq_mul, inv_mul_cancel₀ hz]
  · intro hz
    simp [dejmps_purify, hz]
  · intro hz
    refine ⟨ptrace01 ((dejmpsProb ρ1 ρ2)⁻¹ •
        (proj00 * rhoAfter ρ1 ρ2 * proj00 + proj11 * rhoAfter ρ1 ρ2 * proj11)),
      by simp [dejmps_purify, hz], ?_⟩
    exact (kout (ptrace01 ((dejmpsProb ρ1 ρ2)⁻¹ •
        (proj00 * rhoAfter ρ1 ρ2 * proj00 + proj11 * rhoAfter ρ1 ρ2 * proj11)))
      (dejmpsProb ρ1 ρ2) (by simp [dejmps_purify, hz])).2
  · intro σ p hsp
    obtain ⟨hp, hnz⟩ := apply_filter_some_prob sa s1a ρ σ p hsp
    rw [hp]
    exact hnz
  · intro σ p hsp
    obtain ⟨hp, hnz⟩ := dejmps_some_prob ρ1 ρ2 σ p hsp
    rw [hp]
    exact hnz

/-- Witness for C6 at `ρ = ρ₁ = ρ₂ = bellProj` and filter `√α = 3/5`,
`√(1-α) = 4/5`. -/
theorem C6_witness :
    MixRep bellProj ∧ bellProj.trace = 1
    ∧ 0 ≤ dejmpsProb bellProj bellProj ∧ dejmpsProb bellProj bellProj ≤ 1 := by
  have h := C6_failure_signaling (3/5) (4/5) bellProj bellProj bellProj bellProj_mixRep
    bellProj_trace bellProj_mixRep bellProj_trace bellProj_mixRep bellProj_trace
  exact ⟨bellProj_mixRep, bellProj_trace, h.2.2.2.2.1, h.2.2.2.2.2.1⟩

/-! ## Claim C8 -/

lemma simLoop_step_none (fidC : Mat 4 → ℚ) (rho2 cur : Mat 4) (d : ℕ) (y pr : ℚ)
    (hd : dejmps_purify cur rho2 = (none, pr)) :
    simLoop fidC rho2 (d + 1) cur y = (0, 0) := by
  simp [simLoop, hd]

lemma simLoop_step_zero (fidC : Mat 4 → ℚ) (rho2 cur nxt : Mat 4) (d : ℕ) (y pr : ℚ)
    (hd : dejmps_purify cur rho2 = (some nxt, pr)) (hz : pr = 0) :
    simLoop fidC rho2 (d + 1) cur y = (0, 0) := by
  simp [simLoop, hd, hz]

lemma simLoop_step_some (fidC : Mat 4 → ℚ) (rho2 cur nxt : Mat 4) (d : ℕ) (y pr : ℚ)
    (hd : dejmps_purify cur rho2 = (some nxt, pr)) (hz : pr ≠ 0) :
    simLoop fidC rho2 (d + 1) cur y = simLoop fidC rho2 d nxt (y * pr) := by
  simp [simLoop, hd, hz]

lemma simLoop_yield_mono (fidC : Mat 4 → ℚ) (rho2 : Mat 4) (hm : MixRep rho2)
    (ht : rho2.trace = 1) :
    ∀ (d : ℕ) (cur : Mat 4) (y : ℚ), MixRep cur → cur.trace = 1 → 0 ≤ y →
      (simLoop fidC rho2 (d + 1) cur y).2 ≤ (simLoop fidC rho2 d cur y).2 := by
  intro d
  induction d with
  | zero =>
    intro cur y hc tc hy
    obtain ⟨k0, k1, kout⟩ := dejmps_key cur rho2 hc hm tc ht
    rcases hd : dejmps_purify cur rho2 with ⟨o, pr⟩
    cases o with
    | none =>
      rw [simLoop_step_none fidC rho2 cur 0 y pr hd]
      show (0 : ℚ) ≤ y
      exact hy
    | some nxt =>
      by_cases hz : pr = 0
      · rw [simLoop_step_zero fidC rho2 cur nxt 0 y pr hd hz]
        show (0 : ℚ) ≤ y
        exact hy
      · obtain ⟨hpr, hnz⟩ := dejmps_some_prob cur rho2 nxt pr hd
        rw [simLoop_step_some fidC rho2 cur nxt 0 y pr hd hz]
        have h1pr : pr ≤ 1 := hpr ▸ k1
        show (fidC nxt, y * pr).2 ≤ (fidC cur, y).2
        exact mul_le_of_le_one_right hy h1pr
  | succ d ih =>
    intro cur y hc tc hy
    obtain ⟨k0, k1, kout⟩ := dejmps_key cur rho2 hc hm tc ht
    rcases hd : dejmps_purify cur rho2 with ⟨o, pr⟩
    cases o with
    | none =>
      rw [simLoop_step_none fidC rho2 cur (d + 1) y pr hd,
        simLoop_step_none fidC rho2 cur d y pr hd]
    | some nxt =>
      by_cases hz : pr = 0
      · rw [simLoop_step_zero fidC rho2 cur nxt (d + 1) y pr hd hz,
          simLoop_step_zero fidC rho2 cur nxt d y pr hd hz]
      · obtain ⟨hpr, hnz⟩ := dejmps_some_prob cur rho2 nxt pr hd
        obtain ⟨hmix, htr⟩ := kout nxt pr hd
        have h0pr : 0 ≤ pr := hpr ▸ k0
        rw [simLoop_step_some fidC rho2 cur nxt (d + 1) y pr hd hz,
          simLoop_step_some fidC rho2 cur nxt d y pr hd hz]
        exact ih nxt (y * pr) hmix htr (mul_nonneg hy h0pr)

lemma trialLoop_step_some (sg s1g sp s1p sa s1a : ℚ) (d : ℕ)
    (rho fr fr2 purho : Mat 4) (y pf pf2 psucc : ℚ)
    (e1 : apply_filter sa s1a rho = (some fr, pf))
    (e2 : apply_filter sa s1a (noisyBell sg s1g sp s1p) = (some fr2, pf2))
    (e3 : dejmps_purify fr fr2 = (some purho, psucc)) (hz : psucc ≠ 0) :
    trialLoop sg s1g sp s1p sa s1a (d + 1) rho y
      = trialLoop sg s1g sp s1p sa s1a d purho (y * pf * pf2 * psucc) := by
  simp [trialLoop, e1, e2, e3, hz]

lemma trialLoop_yield_mono (sg s1g sp s1p sa s1a : ℚ)
    (hg : sg ^ 2 + s1g ^ 2 = 1) (hp : sp ^ 2 + s1p ^ 2 = 1)
    (ha : sa ^ 2 ≤ 1) (hb : s1a ^ 2 ≤ 1) :
    ∀ (d : ℕ) (rho : Mat 4) (y : ℚ), MixRep rho → rho.trace = 1 → 0 ≤ y →
      (trialLoop sg s1g sp s1p sa s1a (d + 1) rho y).2
        ≤ (trialLoop sg s1g sp s1p sa s1a d rho y).2 := by
  have hnbm : MixRep (noisyBell sg s1g sp s1p) :=
    noise_mixRep sg s1g sp s1p bellProj bellProj_mixRep
  have hnbt : (noisyBell sg s1g sp s1p).trace = 1 := by
    rw [noisyBell, noise_trace sg s1g sp s1p hg hp, bellProj_trace]
  intro d
  induction d with
  | zero =>
    intro rho y hc tc hy
    rcases e1 : apply_filter sa s1a rho with ⟨o1, pf⟩
    cases o1 with
    | none => simpa [trialLoop, e1] using hy
    | some fr =>
      rcases e2 : apply_filter sa s1a (noisyBell sg s1g sp s1p) with ⟨o2, pf2⟩
      cases o2 with
      | none => simpa [trialLoop, e1, e2] using hy
      | some fr2 =>
        rcases e3 : dejmps_purify fr fr2 with ⟨o3, psucc⟩
        cases o3 with
        | none => simpa [trialLoop, e1, e2, e3] using hy
        | some purho =>
          by_cases hz : psucc = 0
          · simpa [trialLoop, e1, e2, e3, hz] using hy
          · obtain ⟨q1, _⟩ := apply_filter_some_prob sa s1a rho fr pf e1
            obtain ⟨f0, f1, _⟩ := filter_key sa s1a rho hc tc ha hb
            obtain ⟨q2, _⟩ := apply_filter_some_prob sa s1a (noisyBell sg s1g sp s1p) fr2 pf2 e2
            obtain ⟨g0, g1, gout⟩ := filter_key sa s1a (noisyBell sg s1g sp s1p) hnbm hnbt ha hb
            obtain ⟨hfrm, hfrt⟩ := (filter_key sa s1a rho hc tc ha hb).2.2 fr pf e1
            obtain ⟨hfr2m, hfr2t⟩ := gout fr2 pf2 e2
            obtain ⟨k0, k1, _⟩ := dejmps_key fr fr2 hfrm hfr2m hfrt hfr2t
            obtain ⟨q3, _⟩ := dejmps_some_prob fr fr2 purho psucc e3
            rw [trialLoop_step_some sg s1g sp s1p sa s1a 0 rho fr fr2 purho y pf pf2 psucc
              e1 e2 e3 hz]
            show (overlap purho, y * pf * pf2 * psucc).2 ≤ (overlap rho, y).2
            have hpf0 : 0 ≤ pf := q1 ▸ f0
            have hpf1 : pf ≤ 1 := q1 ▸ f1
            have hpf20 : 0 ≤ pf2 := q2 ▸ g0
            have hpf21 : pf2 ≤ 1 := q2 ▸ g1
            have hps1 : psucc ≤ 1 := q3 ▸ k1
            calc y * pf * pf2 * psucc
                ≤ y * pf * pf2 :=
                  mul_le_of_le_one_right (mul_nonneg (mul_nonneg hy hpf0) hpf20) hps1
              _ ≤ y * pf := mul_le_of_le_one_right (mul_nonneg hy hpf0) hpf21
              _ ≤ y := mul_le_of_le_one_right hy hpf1
  | succ d ih =>
    intro rho y hc tc hy
    rcases e1 : apply_filter sa s1a rho with ⟨o1, pf⟩
    cases o1 with
    | none => simp [trialLoop, e1]
    | some fr =>
      rcases e2 : apply_filter sa s1a (noisyBell sg s1g sp s1p) with ⟨o2, pf2⟩
      cases o2 with
      | none => simp [trialLoop, e1, e2]
      | some fr2 =>
        rcases e3 : dejmps_purify fr fr2 with ⟨o3, psucc⟩
        cases o3 with
        | none => simp [trialLoop, e1, e2, e3]
        | some purho =>
          by_cases hz : psucc = 0
          · simp [trialLoop, e1, e2, e3, hz]
          · obtain ⟨q1, _⟩ := apply_filter_some_prob sa s1a rho fr pf e1
            obtain ⟨f0, _, fout⟩ := filter_key sa s1a rho hc tc ha hb
            obtain ⟨q2, _⟩ := apply_filter_some_prob sa s1a (noisyBell sg s1g sp s1p) fr2 pf2 e2
            obtain ⟨g0, _, gout⟩ := filter_key sa s1a (noisyBell sg s1g sp s1p) hnbm hnbt ha hb
            obtain ⟨hfrm, hfrt⟩ := fout fr pf e1
            obtain ⟨hfr2m, hfr2t⟩ := gout fr2 pf2 e2
            obtain ⟨k0, _, kout⟩ := dejmps_key fr fr2 hfrm hfr2m hfrt hfr2t
            obtain ⟨q3, _⟩ := dejmps_some_prob fr fr2 purho psucc e3
            obtain ⟨hpm, hpt⟩ := kout purho psucc e3
            rw [trialLoop_step_some sg s1g sp s1p sa s1a (d + 1) rho fr fr2 purho y pf pf2
              psucc e1 e2 e3 hz,
              trialLoop_step_some sg s1g sp s1p sa s1a d rho fr fr2 purho y pf pf2
              psucc e1 e2 e3 hz]
            have hpf0 : 0 ≤ pf := q1 ▸ f0
            have hpf20 : 0 ≤ pf2 := q2 ▸ g0
            have hps0 : 0 ≤ psucc := q3 ▸ k0
            exact ih purho (y * pf * pf2 * psucc) hpm hpt
              (mul_nonneg (mul_nonneg (mul_nonneg hy hpf0) hpf20) hps0)

/-- C8: for fixed channel and filter parameters the returned yield is
non-increasing in the depth: each extra round multiplies the yield by success
probabilities lying in `[0, 1]` (or kills it to `0`), both for
`simulate_run` and for `run_trial`. -/
theorem C8_yield_monotone (fidC : Mat 4 → ℚ) (sg s1g sp s1p sa s1a : ℚ)
    (hg : sg ^ 2 + s1g ^ 2 = 1) (hp : sp ^ 2 + s1p ^ 2 = 1)
    (ha : sa ^ 2 ≤ 1) (hb : s1a ^ 2 ≤ 1) (d : ℕ) :
    (simulate_run fidC sg s1g sp s1p (d + 1)).2 ≤ (simulate_run fidC sg s1g sp s1p d).2
    ∧ (run_trial sg s1g sp s1p sa s1a (d + 1)).2
      ≤ (run_trial sg s1g sp s1p sa s1a d).2 := by
  have hnbm : MixRep (noisyBell sg s1g sp s1p) :=
    noise_mixRep sg s1g sp s1p bellProj bellProj_mixRep
  have hnbt : (noisyBell sg s1g sp s1p).trace = 1 := by
    rw [noisyBell, noise_trace sg s1g sp s1p hg hp, bellProj_trace]
  exact ⟨simLoop_yield_mono fidC (noisyBell sg s1g sp s1p) hnbm hnbt d
      (noisyBell sg s1g sp s1p) 1 hnbm hnbt (by norm_num),
    trialLoop_yield_mono sg s1g sp s1p sa s1a hg hp ha hb d
      (noisyBell sg s1g sp s1p) 1 hnbm hnbt (by norm_num)⟩

/-- Witness for C8 at `√γ = 3/5`, `√(1-γ) = 4/5`, `p = 0`, `√α = 3/5`,
`√(1-α) = 4/5`, depth `0 → 1`. -/
theorem C8_witness :
    ((3 : ℚ)/5) ^ 2 + ((4 : ℚ)/5) ^ 2 = 1 ∧ ((0 : ℚ)) ^ 2 + ((1 : ℚ)) ^ 2 = 1
    ∧ ((3 : ℚ)/5) ^ 2 ≤ 1 ∧ ((4 : ℚ)/5) ^ 2 ≤ 1
    ∧ (simulate_run (fun _ => 0) (3/5) (4/5) 0 1 1).2
      ≤ (simulate_run (fun _ => 0) (3/5) (4/5) 0 1 0).2
    ∧ (run_trial (3/5) (4/5) 0 1 (3/5) (4/5) 1).2
      ≤ (run_trial (3/5) (4/5) 0 1 (3/5) (4/5) 0).2 := by
  have h := C8_yield_monotone (fun _ => 0) (3/5) (4/5) 0 1 (3/5) (4/5)
    (by norm_num) (by norm_num) (by norm_num) (by norm_num) 0
  exact ⟨by norm_num, by norm_num, by norm_num, by norm_num, h.1, h.2⟩

/-! ## Claim C3 -/

/-- A function with the defining properties of `qt.fidelity(·, bell_state)` at
the one state the counterexample run visits: nonnegative, and squaring to the
overlap `tr(bell_proj * ρ)`.  On that state it returns `9/10`, not the overlap
`81/100`. -/
def exampleFid : Mat 4 → ℚ := fun ρ => if overlap ρ = 81/100 then 9/10 else 0

lemma overlap_noisyBell_val : overlap (noisyBell (3/5) (4/5) 0 1) = 81/100 := by
  norm_num [overlap, noisyBell, two_qubit_noise, amp_damp_kraus, phase_damp_kraus, applyK,
    bellProj, kron, qeye2, sigmazM, Matrix.trace, Matrix.diag, Matrix.mul_apply,
    Fin.sum_univ_four, sum_fin22, Matrix.transpose_apply, Matrix.smul_apply,
    Matrix.one_apply, Fin.divNat, Fin.modNat, Matrix.vecHead, Matrix.vecTail, fin4v0,
    fin4v1, fin4v2, fin4v3, fin2v0, fin2v1]

lemma exampleFid_noisyBell : exampleFid (noisyBell (3/5) (4/5) 0 1) = 9/10 := by
  rw [exampleFid, overlap_noisyBell_val]
  norm_num

lemma staticSurvivors_depth0 :
    staticSurvivors (fun _ => 1/2) (fun _ l => l) (3/5) (4/5) 0 1 (3/5) (4/5) 0
      = [noisyBell (3/5) (4/5) 0 1] := rfl

/-- C3 (amended): for every depth the reported yield is
`(number of survivors) / 2^d`, and the reported fidelity is the mean
`qt.fidelity` (not the mean overlap `tr(bell_proj·ρ)`) of the survivors, `0`
when none survive. -/
theorem C3_amended_static_accounting (fidC : Mat 4 → ℚ) (rand : ℕ → ℚ)
    (shuf : ℕ → List (Mat 4) → List (Mat 4)) (sg s1g sp s1p sa s1a : ℚ) (d : ℕ) :
    (static_purification fidC rand shuf sg s1g sp s1p sa s1a d).2
      = ((staticSurvivors rand shuf sg s1g sp s1p sa s1a d).length : ℚ)
        / ((2 ^ d : ℕ) : ℚ)
    ∧ (static_purification fidC rand shuf sg s1g sp s1p sa s1a d).1
      = (if staticSurvivors rand shuf sg s1g sp s1p sa s1a d = [] then 0
         else ((staticSurvivors rand shuf sg s1g sp s1p sa s1a d).map fidC).sum
           / ((staticSurvivors rand shuf sg s1g sp s1p sa s1a d).length : ℚ)) := by
  constructor
  · simp only [static_purification]
    rw [if_pos (pow_pos (by norm_num : (0 : ℕ) < 2) d)]
  · simp only [static_purification]
    by_cases hs : staticSurvivors rand shuf sg s1g sp s1p sa s1a d = []
    · simp [hs]
    · rw [if_pos (List.length_pos.mpr hs), if_neg hs]

/-- C3 is false on `adaptive.py`: its `static_purification` reports the mean
`qt.fidelity` of the survivors, which is the square root of the overlap with
the Bell reference, not the mean overlap.  With `γ = 9/25, p = 0` and depth
`0` the lone survivor has overlap `81/100`, any fidelity function squaring to
the overlap returns `9/10` on it, and the run reports fidelity `9/10 ≠ 81/100`
(`data_extraction.py` is the variant that really reports the overlap). -/
theorem C3_counterexample :
    exampleFid (noisyBell (3/5) (4/5) 0 1) * exampleFid (noisyBell (3/5) (4/5) 0 1)
      = overlap (noisyBell (3/5) (4/5) 0 1)
    ∧ 0 ≤ exampleFid (noisyBell (3/5) (4/5) 0 1)
    ∧ overlap (noisyBell (3/5) (4/5) 0 1) = 81/100
    ∧ static_purification exampleFid (fun _ => 1/2) (fun _ l => l)
        (3/5) (4/5) 0 1 (3/5) (4/5) 0 = (9/10, 1)
    ∧ ((9 : ℚ)/10) ≠ 81/100 := by
  refine ⟨?_, ?_, overlap_noisyBell_val, ?_, by norm_num⟩
  · rw [exampleFid_noisyBell, overlap_noisyBell_val]
    norm_num
  · rw [exampleFid_noisyBell]
    norm_num
  · simp only [static_purification, staticSurvivors_depth0]
    norm_num [exampleFid_noisyBell]

/-! ## Claim C7 -/

lemma finProdFinEquiv_val (a b : Fin 4) :
    ((finProdFinEquiv (a, b) : Fin (4 * 4)) : ℕ) = b.val + 4 * a.val := rfl

/-- `CNOT_A · (bell ⊗ bell)`: the CNOT with control qubit 0 and target qubit 2
permutes the four basis kets of the Bell ⊗ Bell vector to indices
0, 3, 13, 14. -/
def zMid : Fin (4 * 4) → ℚ :=
  fun i => if i.val = 0 ∨ i.val = 3 ∨ i.val = 13 ∨ i.val = 14 then 1 else 0

set_option maxHeartbeats 1600000 in
lemma stepA : CNOT_A.mulVec (kronVec bellVec bellVec) = zMid := by
  rw [CNOT_A_eq]
  funext i
  fin_cases i <;>
    norm_num [Matrix.mulVec, Matrix.dotProduct, Fin.sum_univ_succ, kron, kronVec, bellVec,
      P0m, P1m, qeye2, sigmaxM, zMid, Matrix.add_apply, Matrix.one_apply, Fin.divNat,
      Fin.modNat, Matrix.vecHead, Matrix.vecTail]

set_option maxHeartbeats 1600000 in
lemma stepB : CNOT_B.mulVec zMid = kronVec bellVec bellVec := by
  rw [CNOT_B_eq]
  funext i
  fin_cases i <;>
    norm_num [Matrix.mulVec, Matrix.dotProduct, Fin.sum_univ_succ, kron, kronVec, bellVec,
      P0m, P1m, qeye2, sigmaxM, zMid, Matrix.add_apply, Matrix.one_apply, Fin.divNat,
      Fin.modNat, Matrix.vecHead, Matrix.vecTail]

lemma bellProj_outer :
    bellProj = (1/2 : ℚ) • Matrix.vecMulVec bellVec bellVec := by
  ext i j
  fin_cases i <;> fin_cases j <;>
    norm_num [bellProj, bellVec, Matrix.vecMulVec_apply, Matrix.smul_apply,
      Matrix.vecHead, Matrix.vecTail]

lemma rhoAfter_bell :
    rhoAfter bellProj bellProj
      = (1/4 : ℚ) • Matrix.vecMulVec (kronVec bellVec bellVec) (kronVec bellVec bellVec) := by
  rw [rhoAfter, bellProj_outer, kron_smul_left, kron_smul_right, kron_vecMulVec, smul_smul]
  simp only [Matrix.mul_smul, Matrix.smul_mul]
  rw [conj_vecMulVec, stepA, conj_vecMulVec, stepB]
  norm_num

/-- The Bell ⊗ Bell vector after both CNOTs, projected on outcome `00` of
qubits 2, 3: ones at indices 0 and 12. -/
def z00 : Fin (4 * 4) → ℚ := fun i => d00vec i * kronVec bellVec bellVec i

/-- The Bell ⊗ Bell vector after both CNOTs, projected on outcome `11` of
qubits 2, 3: ones at indices 3 and 15. -/
def z11 : Fin (4 * 4) → ℚ := fun i => d11vec i * kronVec bellVec bellVec i

lemma proj00_mulVec_bell : proj00.mulVec (kronVec bellVec bellVec) = z00 := by
  rw [proj00_diag]
  funext i
  rw [Matrix.mulVec_diagonal]
  rfl

lemma proj11_mulVec_bell : proj11.mulVec (kronVec bellVec bellVec) = z11 := by
  rw [proj11_diag]
  funext i
  rw [Matrix.mulVec_diagonal]
  rfl

lemma X00_bell :
    proj00 * rhoAfter bellProj bellProj * proj00
      = (1/4 : ℚ) • Matrix.vecMulVec z00 z00 := by
  rw [rhoAfter_bell]
  nth_rewrite 2 [← proj00_transpose]
  simp only [Matrix.mul_smul, Matrix.smul_mul]
  rw [conj_vecMulVec, proj00_mulVec_bell]

lemma X11_bell :
    proj11 * rhoAfter bellProj bellProj * proj11
      = (1/4 : ℚ) • Matrix.vecMulVec z11 z11 := by
  rw [rhoAfter_bell]
  nth_rewrite 2 [← proj11_transpose]
  simp only [Matrix.mul_smul, Matrix.smul_mul]
  rw [conj_vecMulVec, proj11_mulVec_bell]

lemma dotsq_z00 : dotsq z00 = 2 := by
  norm_num [dotsq, z00, Fin.sum_univ_succ, d00vec, kronVec, bellVec, Fin.divNat,
    Fin.modNat, Matrix.vecHead, Matrix.vecTail]

lemma dotsq_z11 : dotsq z11 = 2 := by
  norm_num [dotsq, z11, Fin.sum_univ_succ, d11vec, kronVec, bellVec, Fin.divNat,
    Fin.modNat, Matrix.vecHead, Matrix.vecTail]

lemma dejmpsProb_bell : dejmpsProb bellProj bellProj = 1 := by
  rw [dejmpsProb, X00_bell, X11_bell, Matrix.trace_smul, Matrix.trace_smul,
    trace_vecMulVec, trace_vecMulVec, dotsq_z00, dotsq_z11]
  norm_num

lemma ptrace_out_bell :
    ptrace01 ((1/4 : ℚ) • Matrix.vecMulVec z00 z00
      + (1/4 : ℚ) • Matrix.vecMulVec z11 z11) = bellProj := by
  ext a b
  fin_cases a <;> fin_cases b <;>
    norm_num [ptrace01, Matrix.vecMulVec_apply, Matrix.smul_apply, Matrix.add_apply,
      z00, z11, d00vec, d11vec, kronVec, bellVec, finProdFinEquiv_val, Fin.sum_univ_four,
      Fin.divNat, Fin.modNat, Matrix.vecHead, Matrix.vecTail, bellProj, fin4v0, fin4v1,
      fin4v2, fin4v3]

/-- C7: the ideal Bell pair is a fixed point of the DEJMPS round — on two
copies of `bell.proj()` the success probability `p₀₀ + p₁₁` is exactly `1` and
the output state is `bell.proj()` again, whose overlap with the Bell
reference is exactly `1` (hence `qt.fidelity` of the output is `1` as well). -/
theorem C7_bell_fixed_point :
    dejmps_purify bellProj bellProj = (some bellProj, 1)
    ∧ overlap bellProj = 1 := by
  constructor
  · rw [dejmps_purify, dejmpsProb_bell, if_neg one_ne_zero, X00_bell, X11_bell,
      inv_one, one_smul, ptrace_out_bell]
  · norm_num [overlap, bellProj, Matrix.trace, Matrix.diag, Matrix.mul_apply,
      Fin.sum_univ_four, Matrix.vecHead, Matrix.vecTail, fin4v0, fin4v1, fin4v2, fin4v3]

/-- Witness for C10 at `T = 1`, depth 0, noiseless channel. -/
theorem C10_witness :
    (0 : ℕ) < 1 ∧ process_task 0 1 0 1 (1/4) (1/2) (1/2) 0 0 0 1
      = (0, 0, 0, 1/4, (run_trial 0 1 0 1 (1/2) (1/2) 0).1,
          (run_trial 0 1 0 1 (1/2) (1/2) 0).2) :=
  ⟨by norm_num,
    C10_process_task_deterministic 0 1 0 1 (1/4) (1/2) (1/2) 0 0 0 1 (by norm_num)⟩

end PurifSim
